import Mathlib

/-!
Verification development for the indexed write batch subsystem
(`utilities/write_batch_with_index/write_batch_with_index_internal.{h,cc}`):
the base/delta merging iterator, the reverse-order batch lookup
(`GetFromBatch`), the index entry comparator and the record decoder.

Keys, values and buffer bytes are modelled as natural numbers / lists of
natural numbers; the active key comparator for the merging-iterator model is
the natural order on `Nat` (an arbitrary instance of the abstract comparator
collaborator).  Sub-iterators (the external base iterator and the per-CF
delta iterator) are modelled as cursors over sorted lists; both report an
always-OK status, matching `WBWIIteratorImpl::status()` (which is
hard-coded OK in the source) and an error-free base collaborator.
-/

namespace WBWI

/-- Model of `rocksdb::Status`, restricted to the codes this subsystem
creates.  `corruption` carries both message parts that
`Status::Corruption(msg, msg2)` receives in the source. -/
inductive Status where
  | ok : Status
  | notFound : Status
  | invalidArgument (msg : String) : Status
  | notSupported (msg : String) : Status
  | corruption (msg : String) (msg2 : String) : Status
deriving Repr, DecidableEq

def Status.isOK : Status → Bool
  | .ok => true
  | _ => false

/-- `WriteType` from `write_batch_with_index.h` (order of the C++ enum). -/
inductive WriteType where
  | kPutRecord
  | kDeleteRecord
  | kSingleDeleteRecord
  | kDeleteRangeRecord
  | kMergeRecord
  | kLogDataRecord
  | kXIDRecord
deriving Repr, DecidableEq

/-- Numeric value of the C++ `WriteType` enum constant (declaration order). -/
def WriteType.toNat : WriteType → Nat
  | .kPutRecord => 0
  | .kDeleteRecord => 1
  | .kSingleDeleteRecord => 2
  | .kDeleteRangeRecord => 3
  | .kMergeRecord => 4
  | .kLogDataRecord => 5
  | .kXIDRecord => 6

/-- Three-way comparison of two `Nat` keys as an `Int` sign, the shape the
C++ `Comparator::Compare` collaborator returns. -/
def cmpZ (a b : Nat) : Int :=
  if a < b then -1 else if b < a then 1 else 0

theorem cmpZ_self (a : Nat) : cmpZ a a = 0 := by
  unfold cmpZ; simp

theorem cmpZ_lt {a b : Nat} (h : a < b) : cmpZ a b = -1 := by
  unfold cmpZ; simp [h]

theorem cmpZ_gt {a b : Nat} (h : b < a) : cmpZ a b = 1 := by
  have h' : ¬ a < b := Nat.lt_asymm h
  unfold cmpZ; simp [h, h']

theorem cmpZ_eq_zero_iff {a b : Nat} : cmpZ a b = 0 ↔ a = b := by
  unfold cmpZ
  split <;> rename_i h1
  · constructor <;> intro h <;> omega
  · split <;> rename_i h2 <;> constructor <;> intro h <;> omega

theorem cmpZ_le_zero_iff {a b : Nat} : cmpZ a b ≤ 0 ↔ a ≤ b := by
  unfold cmpZ
  split <;> rename_i h1
  · constructor <;> intro h <;> omega
  · split <;> rename_i h2 <;> constructor <;> intro h <;> omega

theorem cmpZ_pos_iff {a b : Nat} : 0 < cmpZ a b ↔ b < a := by
  unfold cmpZ
  split <;> rename_i h1
  · constructor <;> intro h <;> omega
  · split <;> rename_i h2 <;> constructor <;> intro h <;> omega

theorem cmpZ_neg_iff {a b : Nat} : cmpZ a b < 0 ↔ a < b := by
  unfold cmpZ
  split <;> rename_i h1
  · constructor <;> intro h <;> omega
  · split <;> rename_i h2 <;> constructor <;> intro h <;> omega

theorem cmpZ_ge_zero_iff {a b : Nat} : 0 ≤ cmpZ a b ↔ b ≤ a := by
  unfold cmpZ
  split <;> rename_i h1
  · constructor <;> intro h <;> omega
  · split <;> rename_i h2 <;> constructor <;> intro h <;> omega

/-! ## Record decoder (`ReadableWriteBatch::GetEntryFromDataOffset`) -/

/-- Byte tags of write-batch records.  Modelled from the spec: the numeric
tag values live in the write-batch collaborator (`db/dbformat.h`), which is
outside this subsystem; only the named tags and their distinctness matter
for the decoder's switch.  Values follow the collaborator's format. -/
def kTypeDeletion : Nat := 0x0
def kTypeValue : Nat := 0x1
def kTypeMerge : Nat := 0x2
def kTypeLogData : Nat := 0x3
def kTypeColumnFamilyDeletion : Nat := 0x4
def kTypeColumnFamilyValue : Nat := 0x5
def kTypeColumnFamilyMerge : Nat := 0x6
def kTypeSingleDeletion : Nat := 0x7
def kTypeColumnFamilySingleDeletion : Nat := 0x8
def kTypeBeginPrepareXID : Nat := 0x9
def kTypeEndPrepareXID : Nat := 0xA
def kTypeCommitXID : Nat := 0xB
def kTypeRollbackXID : Nat := 0xC
def kTypeNoop : Nat := 0xD
def kTypeColumnFamilyRangeDeletion : Nat := 0xE
def kTypeRangeDeletion : Nat := 0xF
def kTypeBeginPersistedPrepareXID : Nat := 0x12
def kTypeBeginUnprepareXID : Nat := 0x13

/-- The tag-to-kind switch of `GetEntryFromDataOffset`
(`write_batch_with_index_internal.cc:495-531`): known tags map to a
`WriteType`, anything else is `none` (the `default:` corruption case). -/
def tagToType (tag : Nat) : Option WriteType :=
  if tag = kTypeColumnFamilyValue ∨ tag = kTypeValue then
    some .kPutRecord
  else if tag = kTypeColumnFamilyDeletion ∨ tag = kTypeDeletion then
    some .kDeleteRecord
  else if tag = kTypeColumnFamilySingleDeletion ∨ tag = kTypeSingleDeletion then
    some .kSingleDeleteRecord
  else if tag = kTypeColumnFamilyRangeDeletion ∨ tag = kTypeRangeDeletion then
    some .kDeleteRangeRecord
  else if tag = kTypeColumnFamilyMerge ∨ tag = kTypeMerge then
    some .kMergeRecord
  else if tag = kTypeLogData then
    some .kLogDataRecord
  else if tag = kTypeNoop ∨ tag = kTypeBeginPrepareXID ∨
          tag = kTypeBeginPersistedPrepareXID ∨ tag = kTypeBeginUnprepareXID ∨
          tag = kTypeEndPrepareXID ∨ tag = kTypeCommitXID ∨
          tag = kTypeRollbackXID then
    some .kXIDRecord
  else
    none

/-- Nullness of the five output pointers of `GetEntryFromDataOffset`. -/
structure DecodeOuts where
  typeNull : Bool
  keyNull : Bool
  valueNull : Bool
  blobNull : Bool
  xidNull : Bool
deriving Repr, DecidableEq

def DecodeOuts.anyNull (o : DecodeOuts) : Bool :=
  o.typeNull || o.keyNull || o.valueNull || o.blobNull || o.xidNull

/-- All five output pointers non-null. -/
def DecodeOuts.allSet : DecodeOuts := ⟨false, false, false, false, false⟩

/-- `ReadableWriteBatch::GetEntryFromDataOffset`
(`write_batch_with_index_internal.cc:469-533`).  The batch buffer `rep` is a
byte list; the record at an offset starts with its tag byte (the byte-level
payload layout is the write-batch collaborator's, out of scope, and does not
affect the returned status or kind).  Returns the status and, on success,
the decoded record kind. -/
def getEntryFromDataOffset (rep : List Nat) (outs : DecodeOuts)
    (data_offset : Nat) : Status × Option WriteType :=
  if outs.anyNull then
    (.invalidArgument "Output parameters cannot be null", none)
  else if data_offset = rep.length then
    (.notFound, none)
  else if data_offset > rep.length then
    (.invalidArgument "data offset exceed write batch size", none)
  else
    let tag := rep.getD data_offset 0
    match tagToType tag with
    | some t => (.ok, some t)
    | none => (.corruption "unknown WriteBatch tag " (toString tag), none)

/-- Evaluation of the decoder at an in-range offset with non-null outputs. -/
theorem getEntry_eq_of_lt (rep : List Nat) (off : Nat) (h : off < rep.length) :
    getEntryFromDataOffset rep .allSet off =
      match tagToType (rep.getD off 0) with
      | some t => (Status.ok, some t)
      | none => (Status.corruption "unknown WriteBatch tag "
          (toString (rep.getD off 0)), none) := by
  have h1 : ¬ off = rep.length := by omega
  have h2 : ¬ off > rep.length := by omega
  unfold getEntryFromDataOffset
  rw [if_neg (show ¬ (DecodeOuts.allSet.anyNull = true) by decide),
    if_neg h1, if_neg h2]

/-- C8: the record decoder returns `NotFound` exactly at the end of the
batch, maps each known tag to its record kind per the authoritative table,
returns `Corruption` carrying the tag byte on any unknown tag, and returns
`InvalidArgument` when an output parameter is null. -/
theorem C8_decoder_contract (rep : List Nat) (data_offset : Nat)
    (hle : data_offset ≤ rep.length) :
    (((getEntryFromDataOffset rep .allSet data_offset).1 = Status.notFound ↔
        data_offset = rep.length) ∧
      (data_offset < rep.length →
        getEntryFromDataOffset rep .allSet data_offset =
          match tagToType (rep.getD data_offset 0) with
          | some t => (Status.ok, some t)
          | none => (Status.corruption "unknown WriteBatch tag "
              (toString (rep.getD data_offset 0)), none)) ∧
      (∀ outs : DecodeOuts, outs.anyNull = true →
        getEntryFromDataOffset rep outs data_offset =
          (Status.invalidArgument "Output parameters cannot be null", none))) ∧
    (tagToType kTypeValue = some .kPutRecord ∧
      tagToType kTypeColumnFamilyValue = some .kPutRecord ∧
      tagToType kTypeDeletion = some .kDeleteRecord ∧
      tagToType kTypeColumnFamilyDeletion = some .kDeleteRecord ∧
      tagToType kTypeSingleDeletion = some .kSingleDeleteRecord ∧
      tagToType kTypeColumnFamilySingleDeletion = some .kSingleDeleteRecord ∧
      tagToType kTypeRangeDeletion = some .kDeleteRangeRecord ∧
      tagToType kTypeColumnFamilyRangeDeletion = some .kDeleteRangeRecord ∧
      tagToType kTypeMerge = some .kMergeRecord ∧
      tagToType kTypeColumnFamilyMerge = some .kMergeRecord ∧
      tagToType kTypeLogData = some .kLogDataRecord ∧
      tagToType kTypeNoop = some .kXIDRecord ∧
      tagToType kTypeBeginPrepareXID = some .kXIDRecord ∧
      tagToType kTypeBeginPersistedPrepareXID = some .kXIDRecord ∧
      tagToType kTypeBeginUnprepareXID = some .kXIDRecord ∧
      tagToType kTypeEndPrepareXID = some .kXIDRecord ∧
      tagToType kTypeCommitXID = some .kXIDRecord ∧
      tagToType kTypeRollbackXID = some .kXIDRecord) ∧
    (∀ tag : Nat, tagToType tag = none →
      getEntryFromDataOffset (tag :: rep.tail) .allSet 0 =
        (Status.corruption "unknown WriteBatch tag " (toString tag), none)) := by
  refine ⟨⟨?_, ?_, ?_⟩, ?_, ?_⟩
  · by_cases h : data_offset = rep.length
    · simp [getEntryFromDataOffset, h, DecodeOuts.anyNull, DecodeOuts.allSet]
    · have hlt : data_offset < rep.length := lt_of_le_of_ne hle h
      constructor
      · intro hc
        exfalso
        rw [getEntry_eq_of_lt rep data_offset hlt] at hc
        cases htag : tagToType (rep.getD data_offset 0) <;>
          rw [htag] at hc <;> simp at hc
      · intro heq; exact absurd heq h
  · intro hlt
    exact getEntry_eq_of_lt rep data_offset hlt
  · intro outs hnull
    simp [getEntryFromDataOffset, hnull]
  · decide
  · intro tag htag
    rw [getEntry_eq_of_lt (tag :: rep.tail) 0 (by simp)]
    have hhd : (tag :: rep.tail).getD 0 0 = tag := rfl
    rw [hhd, htag]

/-- Witness for C8 at a concrete buffer: a two-byte batch read at its end
offset. -/
theorem C8_decoder_contract_witness :
    (getEntryFromDataOffset [kTypeValue, 42] .allSet 2).1 = Status.notFound :=
  (C8_decoder_contract [kTypeValue, 42] 2 (by decide)).1.1.mpr (by decide)

/-! ## Entry comparator (`WriteBatchEntryComparator`) -/

/-- `WriteBatchIndexEntry::kFlagMinInCf = port::kMaxSizet` (max `size_t`). -/
def kFlagMinInCf : Nat := 2 ^ 64 - 1

/-- `WriteBatchIndexEntry` (write_batch_with_index_internal.h:535-592).
`search_key`, when set, overrides the `(key_offset, key_size)` slice. -/
structure WriteBatchIndexEntry where
  offset : Nat
  column_family : Nat
  key_offset : Nat
  key_size : Nat
  search_key : Option (List Nat)
deriving Repr, DecidableEq

/-- `WriteBatchIndexEntry::is_min_in_cf`. -/
def WriteBatchIndexEntry.is_min_in_cf (e : WriteBatchIndexEntry) : Bool :=
  e.key_size == kFlagMinInCf

/-- `Slice(data + offset, size)` over a byte-list buffer. -/
def sliceOf (data : List Nat) (off sz : Nat) : List Nat :=
  (data.drop off).take sz

/-- `WriteBatchEntryComparator`: default comparator, sparse per-CF
comparator table (`cf_comparators_`), and the batch buffer (`rep_`).
Comparators are `Int`-sign functions on byte-list keys. -/
structure WriteBatchEntryComparator where
  default_comparator : List Nat → List Nat → Int
  cf_comparators : List (Option (List Nat → List Nat → Int))
  write_batch : List Nat

/-- `WriteBatchEntryComparator::CompareKey`
(write_batch_with_index_internal.cc:590-599): the registered per-CF
comparator if present, else the default comparator. -/
def WriteBatchEntryComparator.CompareKey (c : WriteBatchEntryComparator)
    (column_family : Nat) (key1 key2 : List Nat) : Int :=
  match c.cf_comparators.getD column_family none with
  | some cmp => cmp key1 key2
  | none => c.default_comparator key1 key2

/-- Key resolution inside `operator()`: `search_key` if set, else the slice
at `(key_offset, key_size)` of the batch buffer. -/
def WriteBatchEntryComparator.entryKey (c : WriteBatchEntryComparator)
    (e : WriteBatchIndexEntry) : List Nat :=
  match e.search_key with
  | none => sliceOf c.write_batch e.key_offset e.key_size
  | some k => k

/-- `WriteBatchEntryComparator::operator()`
(write_batch_with_index_internal.cc:549-588). -/
def WriteBatchEntryComparator.compareEntry (c : WriteBatchEntryComparator)
    (entry1 entry2 : WriteBatchIndexEntry) : Int :=
  if entry1.column_family > entry2.column_family then 1
  else if entry1.column_family < entry2.column_family then -1
  else if entry1.is_min_in_cf then -1
  else if entry2.is_min_in_cf then 1
  else
    let key1 := c.entryKey entry1
    let key2 := c.entryKey entry2
    let cmp := c.CompareKey entry1.column_family key1 key2
    if cmp ≠ 0 then cmp
    else if entry1.offset > entry2.offset then 1
    else if entry1.offset < entry2.offset then -1
    else 0

/-- Lawfulness of an `Int`-sign comparator collaborator (what
`rocksdb::Comparator` contracts promise: reflexivity, antisymmetry and
transitivity of the induced order). -/
structure LawfulCmp (f : List Nat → List Nat → Int) : Prop where
  refl_eq : ∀ a, f a a = 0
  antisym : ∀ a b, f a b = - f b a
  trans_le : ∀ a b c, f a b ≤ 0 → f b c ≤ 0 → f a c ≤ 0

theorem LawfulCmp.zero_symm {f} (h : LawfulCmp f) {a b} (hab : f a b = 0) :
    f b a = 0 := by
  have := h.antisym b a
  omega

theorem LawfulCmp.lt_of_lt_of_le {f} (h : LawfulCmp f) {a b c}
    (hab : f a b < 0) (hbc : f b c ≤ 0) : f a c < 0 := by
  have hac := h.trans_le a b c (le_of_lt hab) hbc
  rcases lt_or_eq_of_le hac with hlt | heq
  · exact hlt
  · exfalso
    have hca : f c a = 0 := h.zero_symm heq
    have hcb := h.trans_le c a b (le_of_eq hca) (le_of_lt hab)
    have hbc' := h.antisym b c
    have hcb' : f b c = 0 := by omega
    have hba := h.trans_le b c a (le_of_eq hcb') (le_of_eq hca)
    have := h.antisym a b
    omega

theorem LawfulCmp.lt_of_le_of_lt {f} (h : LawfulCmp f) {a b c}
    (hab : f a b ≤ 0) (hbc : f b c < 0) : f a c < 0 := by
  have hac := h.trans_le a b c hab (le_of_lt hbc)
  rcases lt_or_eq_of_le hac with hlt | heq
  · exact hlt
  · exfalso
    have hca : f c a = 0 := h.zero_symm heq
    have hba := h.trans_le b c a (le_of_lt hbc) (le_of_eq hca)
    have hab' := h.antisym a b
    have hab0 : f a b = 0 := by omega
    have hba0 : f b a = 0 := by omega
    have hcb := h.trans_le c a b (le_of_eq hca) (le_of_eq hab0)
    have := h.antisym b c
    omega

theorem LawfulCmp.eq_trans_zero {f} (h : LawfulCmp f) {a b c}
    (hab : f a b = 0) (hbc : f b c = 0) : f a c = 0 := by
  have h1 := h.trans_le a b c (le_of_eq hab) (le_of_eq hbc)
  have hba : f b a = 0 := h.zero_symm hab
  have hcb : f c b = 0 := h.zero_symm hbc
  have h2 := h.trans_le c b a (le_of_eq hcb) (le_of_eq hba)
  have := h.antisym a c
  omega

/-- The effective per-CF key comparator is lawful when the default and all
registered comparators are. -/
theorem compareKey_lawful (c : WriteBatchEntryComparator)
    (hdef : LawfulCmp c.default_comparator)
    (hcf : ∀ i f, c.cf_comparators.getD i none = some f → LawfulCmp f)
    (cf : Nat) : LawfulCmp (c.CompareKey cf) := by
  cases hg : c.cf_comparators.getD cf none with
  | some f =>
    have heq : c.CompareKey cf = f := by
      funext k1 k2
      unfold WriteBatchEntryComparator.CompareKey
      rw [hg]
    rw [heq]
    exact hcf cf f hg
  | none =>
    have heq : c.CompareKey cf = c.default_comparator := by
      funext k1 k2
      unfold WriteBatchEntryComparator.CompareKey
      rw [hg]
    rw [heq]
    exact hdef

/-- `operator()` on two non-sentinel entries of the same column family
reduces to the key comparison with the offset tiebreak. -/
theorem compareEntry_same_cf (c : WriteBatchEntryComparator)
    (e1 e2 : WriteBatchIndexEntry) (hc : e1.column_family = e2.column_family)
    (h1 : e1.is_min_in_cf = false) (h2 : e2.is_min_in_cf = false) :
    c.compareEntry e1 e2 =
      (if c.CompareKey e1.column_family (c.entryKey e1) (c.entryKey e2) ≠ 0
       then c.CompareKey e1.column_family (c.entryKey e1) (c.entryKey e2)
       else if e1.offset > e2.offset then 1
       else if e1.offset < e2.offset then -1
       else 0) := by
  unfold WriteBatchEntryComparator.compareEntry
  simp [hc, h1, h2, lt_irrefl]

/-- `compareEntry ≤ 0` on same-CF non-sentinel entries is the lexicographic
(key, offset) condition. -/
theorem compareEntry_same_cf_le_iff (c : WriteBatchEntryComparator)
    {e1 e2 : WriteBatchIndexEntry} (hc : e1.column_family = e2.column_family)
    (h1 : e1.is_min_in_cf = false) (h2 : e2.is_min_in_cf = false) :
    c.compareEntry e1 e2 ≤ 0 ↔
      (c.CompareKey e1.column_family (c.entryKey e1) (c.entryKey e2) < 0 ∨
       (c.CompareKey e1.column_family (c.entryKey e1) (c.entryKey e2) = 0 ∧
        e1.offset ≤ e2.offset)) := by
  rw [compareEntry_same_cf c e1 e2 hc h1 h2]
  by_cases hk : c.CompareKey e1.column_family (c.entryKey e1) (c.entryKey e2) = 0
  · rw [if_neg (by simpa using hk)]
    constructor
    · intro h
      refine Or.inr ⟨hk, ?_⟩
      by_contra hgt
      rw [if_pos (by omega)] at h
      omega
    · intro _
      by_cases ho : e1.offset > e2.offset
      · omega
      · rw [if_neg ho]
        split <;> omega
  · rw [if_pos (by simpa using hk)]
    omega

/-- C6: the entry comparator orders index entries by column family first,
places the `MIN_IN_CF` sentinel below every entry of its column family,
compares resolved keys (`search_key` if set, else the buffer slice) with
the registered per-CF comparator falling back to the default one, breaks
key ties by smaller offset — a total order under which same-key entries of
a CF appear in insertion order, the latest mutation last. -/
theorem C6_entry_comparator_total_order (c : WriteBatchEntryComparator)
    (hdef : LawfulCmp c.default_comparator)
    (hcf : ∀ i f, c.cf_comparators.getD i none = some f → LawfulCmp f) :
    (∀ e1 e2 : WriteBatchIndexEntry,
      (e1.column_family < e2.column_family → c.compareEntry e1 e2 = -1) ∧
      (e2.column_family < e1.column_family → c.compareEntry e1 e2 = 1)) ∧
    (∀ e1 e2 : WriteBatchIndexEntry,
      e1.column_family = e2.column_family →
      (e1.is_min_in_cf = true → c.compareEntry e1 e2 = -1) ∧
      (e1.is_min_in_cf = false → e2.is_min_in_cf = true →
        c.compareEntry e1 e2 = 1)) ∧
    (∀ e : WriteBatchIndexEntry,
      (e.search_key = none →
        c.entryKey e = sliceOf c.write_batch e.key_offset e.key_size) ∧
      (∀ k, e.search_key = some k → c.entryKey e = k)) ∧
    (∀ cf k1 k2,
      (∀ f, c.cf_comparators.getD cf none = some f →
        c.CompareKey cf k1 k2 = f k1 k2) ∧
      (c.cf_comparators.getD cf none = none →
        c.CompareKey cf k1 k2 = c.default_comparator k1 k2)) ∧
    (∀ e1 e2 : WriteBatchIndexEntry,
      e1.column_family = e2.column_family →
      e1.is_min_in_cf = false → e2.is_min_in_cf = false →
      (c.CompareKey e1.column_family (c.entryKey e1) (c.entryKey e2) ≠ 0 →
        c.compareEntry e1 e2 =
          c.CompareKey e1.column_family (c.entryKey e1) (c.entryKey e2)) ∧
      (c.CompareKey e1.column_family (c.entryKey e1) (c.entryKey e2) = 0 →
        (e1.offset < e2.offset → c.compareEntry e1 e2 = -1) ∧
        (e2.offset < e1.offset → c.compareEntry e1 e2 = 1) ∧
        (e1.offset = e2.offset → c.compareEntry e1 e2 = 0))) ∧
    (∀ e : WriteBatchIndexEntry, e.is_min_in_cf = false →
      c.compareEntry e e = 0) ∧
    (∀ e1 e2 : WriteBatchIndexEntry,
      e1.is_min_in_cf = false → e2.is_min_in_cf = false →
      c.compareEntry e1 e2 = - c.compareEntry e2 e1) ∧
    (∀ e1 e2 e3 : WriteBatchIndexEntry,
      e1.is_min_in_cf = false → e2.is_min_in_cf = false →
      e3.is_min_in_cf = false →
      c.compareEntry e1 e2 ≤ 0 → c.compareEntry e2 e3 ≤ 0 →
      c.compareEntry e1 e3 ≤ 0) ∧
    (∀ e1 e2 : WriteBatchIndexEntry,
      e1.column_family = e2.column_family →
      e1.is_min_in_cf = false → e2.is_min_in_cf = false →
      c.entryKey e1 = c.entryKey e2 → e1.offset < e2.offset →
      c.compareEntry e1 e2 = -1) := by
  have hck : ∀ cf, LawfulCmp (c.CompareKey cf) := compareKey_lawful c hdef hcf
  refine ⟨?_, ?_, ?_, ?_, ?_, ?_, ?_, ?_, ?_⟩
  · intro e1 e2
    constructor
    · intro h
      unfold WriteBatchEntryComparator.compareEntry
      rw [if_neg (by omega), if_pos h]
    · intro h
      unfold WriteBatchEntryComparator.compareEntry
      rw [if_pos h]
  · intro e1 e2 hc
    constructor
    · intro hmin
      unfold WriteBatchEntryComparator.compareEntry
      rw [if_neg (by omega), if_neg (by omega), if_pos hmin]
    · intro hmin1 hmin2
      unfold WriteBatchEntryComparator.compareEntry
      rw [if_neg (by omega), if_neg (by omega)]
      rw [if_neg (by simp [hmin1]), if_pos hmin2]
  · intro e
    constructor
    · intro h
      unfold WriteBatchEntryComparator.entryKey
      rw [h]
    · intro k h
      unfold WriteBatchEntryComparator.entryKey
      rw [h]
  · intro cf k1 k2
    constructor
    · intro f h
      unfold WriteBatchEntryComparator.CompareKey
      rw [h]
    · intro h
      unfold WriteBatchEntryComparator.CompareKey
      rw [h]
  · intro e1 e2 hc h1 h2
    constructor
    · intro hk
      rw [compareEntry_same_cf c e1 e2 hc h1 h2, if_pos (by simpa using hk)]
    · intro hk
      refine ⟨?_, ?_, ?_⟩ <;> intro ho <;>
        rw [compareEntry_same_cf c e1 e2 hc h1 h2,
          if_neg (by simpa using hk)]
      · rw [if_neg (by omega), if_pos ho]
      · rw [if_pos ho]
      · rw [if_neg (by omega), if_neg (by omega)]
  · intro e hmin
    rw [compareEntry_same_cf c e e rfl hmin hmin]
    rw [if_neg (by simpa using (hck e.column_family).refl_eq (c.entryKey e))]
    rw [if_neg (by omega), if_neg (by omega)]
  · intro e1 e2 h1 h2
    rcases Nat.lt_trichotomy e1.column_family e2.column_family with hc | hc | hc
    · have ha : c.compareEntry e1 e2 = -1 := by
        unfold WriteBatchEntryComparator.compareEntry
        rw [if_neg (by omega), if_pos hc]
      have hb : c.compareEntry e2 e1 = 1 := by
        unfold WriteBatchEntryComparator.compareEntry
        rw [if_pos hc]
      rw [ha, hb]
    · rw [compareEntry_same_cf c e1 e2 hc h1 h2,
        compareEntry_same_cf c e2 e1 hc.symm h2 h1, ← hc]
      have hanti := (hck e1.column_family).antisym (c.entryKey e1)
        (c.entryKey e2)
      by_cases hk : c.CompareKey e1.column_family (c.entryKey e1)
          (c.entryKey e2) = 0
      · have hk' : c.CompareKey e1.column_family (c.entryKey e2)
            (c.entryKey e1) = 0 := by omega
        rw [if_neg (not_ne_iff.mpr hk), if_neg (not_ne_iff.mpr hk')]
        rcases Nat.lt_trichotomy e1.offset e2.offset with ho | ho | ho
        · rw [if_neg (show ¬ e1.offset > e2.offset by omega), if_pos ho,
            if_pos (show e2.offset > e1.offset by omega)]
        · rw [if_neg (show ¬ e1.offset > e2.offset by omega),
            if_neg (show ¬ e1.offset < e2.offset by omega),
            if_neg (show ¬ e2.offset > e1.offset by omega),
            if_neg (show ¬ e2.offset < e1.offset by omega)]
          decide
        · rw [if_pos ho, if_neg (show ¬ e2.offset > e1.offset by omega),
            if_pos (show e2.offset < e1.offset by omega)]
          decide
      · have hk' : c.CompareKey e1.column_family (c.entryKey e2)
            (c.entryKey e1) ≠ 0 := by omega
        rw [if_pos hk, if_pos hk']
        omega
    · have ha : c.compareEntry e1 e2 = 1 := by
        unfold WriteBatchEntryComparator.compareEntry
        rw [if_pos hc]
      have hb : c.compareEntry e2 e1 = -1 := by
        unfold WriteBatchEntryComparator.compareEntry
        rw [if_neg (by omega), if_pos hc]
      rw [ha, hb]
      decide
  · intro e1 e2 e3 h1 h2 h3 h12 h23
    have hc12 : e1.column_family ≤ e2.column_family := by
      by_contra hgt
      have : c.compareEntry e1 e2 = 1 := by
        unfold WriteBatchEntryComparator.compareEntry
        rw [if_pos (by omega)]
      omega
    have hc23 : e2.column_family ≤ e3.column_family := by
      by_contra hgt
      have : c.compareEntry e2 e3 = 1 := by
        unfold WriteBatchEntryComparator.compareEntry
        rw [if_pos (by omega)]
      omega
    rcases lt_or_eq_of_le (le_trans hc12 hc23) with hc13 | hc13
    · have : c.compareEntry e1 e3 = -1 := by
        unfold WriteBatchEntryComparator.compareEntry
        rw [if_neg (by omega), if_pos hc13]
      omega
    · have hcf12 : e1.column_family = e2.column_family := by omega
      have hcf23 : e2.column_family = e3.column_family := by omega
      rw [compareEntry_same_cf_le_iff c hcf12 h1 h2] at h12
      rw [compareEntry_same_cf_le_iff c hcf23 h2 h3] at h23
      rw [compareEntry_same_cf_le_iff c hc13 h1 h3]
      rw [← hcf12] at h23
      have hl := hck e1.column_family
      rcases h12 with hk12 | ⟨hk12, ho12⟩ <;>
        rcases h23 with hk23 | ⟨hk23, ho23⟩
      · exact Or.inl (hl.lt_of_lt_of_le hk12 (le_of_lt hk23))
      · exact Or.inl (hl.lt_of_lt_of_le hk12 (le_of_eq hk23))
      · exact Or.inl (hl.lt_of_le_of_lt (le_of_eq hk12) hk23)
      · exact Or.inr ⟨hl.eq_trans_zero hk12 hk23, le_trans ho12 ho23⟩
  · intro e1 e2 hc h1 h2 hkey ho
    rw [compareEntry_same_cf c e1 e2 hc h1 h2, hkey]
    rw [if_neg (by simpa using (hck e1.column_family).refl_eq (c.entryKey e2))]
    rw [if_neg (by omega), if_pos ho]

/-- A concrete comparator instance for the C6 witness: trivial default
comparator, no registered per-CF comparators, empty buffer. -/
def witnessComparator : WriteBatchEntryComparator :=
  ⟨fun _ _ => 0, [], []⟩

/-- Witness for C6 at concrete entries: column family 0 sorts before
column family 1. -/
theorem C6_entry_comparator_total_order_witness :
    witnessComparator.compareEntry ⟨0, 0, 0, 0, none⟩ ⟨0, 1, 0, 0, none⟩
      = -1 :=
  ((C6_entry_comparator_total_order witnessComparator
    ⟨fun _ => rfl, fun _ _ => neg_zero.symm, fun _ _ _ _ _ => le_refl 0⟩
    (fun i f h => by simp [witnessComparator, List.getD] at h)).1
    ⟨0, 0, 0, 0, none⟩ ⟨0, 1, 0, 0, none⟩).1 (by decide)

/-! ## Base/delta merging iterator (`BaseDeltaIterator`)

The external base iterator and the per-CF delta iterator are modelled as
cursors over key-sorted lists.  Following the source's collaborator
contracts: the delta iterator's `status()` is hard-coded OK
(`WBWIIteratorImpl::status`, cc:697-701), the base iterator is modelled
error-free with `ChecksUpperBound() = false` and no bounds of its own, so
`base_iterator_upper_bound()` / `base_iterator_lower_bound()` resolve to
the `ReadOptions` bounds (cc:416-430).  The active comparator is the
natural order on `Nat` keys. -/

/-- A base-iterator entry: user key and value. -/
structure BEntry where
  key : Nat
  value : Nat
deriving Repr, DecidableEq

/-- A delta-iterator `WriteEntry`: user key, record kind, value. -/
structure DEntry where
  key : Nat
  wtype : WriteType
  value : Nat
deriving Repr, DecidableEq

/-- A cursor over a list of entries: `pos = none` means invalid
(before-begin or past-the-end). -/
structure Cursor (ε : Type) where
  entries : List ε
  pos : Option Nat
deriving Repr, DecidableEq

namespace Cursor

variable {ε : Type}

def valid (c : Cursor ε) : Bool :=
  match c.pos with
  | some i => decide (i < c.entries.length)
  | none => false

/-- The current entry (an arbitrary default when invalid; the merging
iterator only reads it under a validity guard). -/
def currentD (c : Cursor ε) (d : ε) : ε :=
  match c.pos with
  | some i => c.entries.getD i d
  | none => d

def seekToFirst (c : Cursor ε) : Cursor ε :=
  { c with pos := if c.entries.isEmpty then none else some 0 }

def seekToLast (c : Cursor ε) : Cursor ε :=
  { c with pos :=
      if c.entries.isEmpty then none else some (c.entries.length - 1) }

/-- Lower-bound seek: first entry with key `≥ k` (RocksDB `Seek`). -/
def seek (κ : ε → Nat) (k : Nat) (c : Cursor ε) : Cursor ε :=
  { c with pos := c.entries.findIdx? (fun e => decide (k ≤ κ e)) }

/-- Reverse seek: last entry with key `≤ k` (RocksDB `SeekForPrev`). -/
def seekForPrev (κ : ε → Nat) (k : Nat) (c : Cursor ε) : Cursor ε :=
  { c with pos :=
      match c.entries.findIdx? (fun e => decide (k < κ e)) with
      | some 0 => none
      | some (j + 1) => some j
      | none => if c.entries.isEmpty then none else
          some (c.entries.length - 1) }

def next (c : Cursor ε) : Cursor ε :=
  { c with pos :=
      match c.pos with
      | some i => if i + 1 < c.entries.length then some (i + 1) else none
      | none => none }

def prev (c : Cursor ε) : Cursor ε :=
  { c with pos :=
      match c.pos with
      | some 0 => none
      | some (i + 1) => some i
      | none => none }

/-- Entries remaining when moving forward (termination measure). -/
def fremaining (c : Cursor ε) : Nat :=
  match c.pos with
  | some i => c.entries.length - i
  | none => 0

/-- Entries remaining when moving backward (termination measure). -/
def bremaining (c : Cursor ε) : Nat :=
  match c.pos with
  | some i => i + 1
  | none => 0

end Cursor

/-- `BaseDeltaIterator::Progress` (write_batch_with_index_internal.h:508-522),
ordered so that `< BACKWARD` means forward progression. -/
inductive Progress where
  | toBeDetermined
  | seekToFirst
  | seek
  | forward
  | backward
  | seekForPrev
  | seekToLast
deriving Repr, DecidableEq

/-- Numeric value of the C++ `Progress` enum constant. -/
def Progress.toNat : Progress → Nat
  | .toBeDetermined => 0
  | .seekToFirst => 1
  | .seek => 2
  | .forward => 3
  | .backward => 4
  | .seekForPrev => 5
  | .seekToLast => 6

/-- The `ReadOptions` bounds the merging iterator consults. -/
structure ReadOpts where
  iterate_lower_bound : Option Nat
  iterate_upper_bound : Option Nat
deriving Repr, DecidableEq

/-- State of a `BaseDeltaIterator`: progress, which side is current, the
equal-keys flag, the sticky status, and the two sub-iterators. -/
structure BDI where
  progress : Progress
  current_at_base : Bool
  equal_keys : Bool
  statusF : Status
  base : Cursor BEntry
  delta : Cursor DEntry
deriving Repr, DecidableEq

/-- `IsMovingForward`: `progress_ < Progress::BACKWARD`. -/
def IsMovingForward (s : BDI) : Bool := decide (s.progress.toNat < 4)

/-- `IsMovingBackward`: `progress_ > Progress::FORWARD`. -/
def IsMovingBackward (s : BDI) : Bool := decide (s.progress.toNat > 3)

def bDefault : BEntry := ⟨0, 0⟩
def dDefault : DEntry := ⟨0, .kPutRecord, 0⟩

/-- `base_iterator_->key()`. -/
def baseKey (s : BDI) : Nat := (s.base.currentD bDefault).key

/-- `base_iterator_->value()`. -/
def baseValue (s : BDI) : Nat := (s.base.currentD bDefault).value

/-- `delta_iterator_->Entry()`. -/
def deltaEntry (s : BDI) : DEntry := s.delta.currentD dDefault

/-- `type == kDeleteRecord || type == kSingleDeleteRecord`. -/
def isTombstone (t : WriteType) : Bool :=
  t == .kDeleteRecord || t == .kSingleDeleteRecord

/-- `BaseDeltaIterator::BaseIsWithinBounds` (cc:432-448).  The two
direction tests are mutually exclusive and exhaustive, so the sequential
ifs of the source reduce to this two-branch form. -/
def baseIsWithinBounds (ro : ReadOpts) (s : BDI) : Bool :=
  if IsMovingBackward s = true then
    match ro.iterate_lower_bound with
    | some lb => decide (cmpZ (baseKey s) lb ≥ 0)
    | none => true
  else
    match ro.iterate_upper_bound with
    | some ub => decide (cmpZ (baseKey s) ub < 0)
    | none => true

/-- `BaseDeltaIterator::DeltaIsWithinBounds` (cc:450-463). -/
def deltaIsWithinBounds (ro : ReadOpts) (s : BDI) : Bool :=
  if IsMovingBackward s = true then
    match ro.iterate_lower_bound with
    | some lb => decide (cmpZ (deltaEntry s).key lb ≥ 0)
    | none => true
  else
    match ro.iterate_upper_bound with
    | some ub => decide (cmpZ (deltaEntry s).key ub < 0)
    | none => true

/-- `BaseDeltaIterator::BaseValid` (cc:320-326); the modelled base iterator
has `ChecksUpperBound() = false`, so the bounds check applies. -/
def BaseValid (ro : ReadOpts) (s : BDI) : Bool :=
  s.base.valid && baseIsWithinBounds ro s

/-- `BaseDeltaIterator::DeltaValid` (cc:328-331). -/
def DeltaValid (ro : ReadOpts) (s : BDI) : Bool :=
  s.delta.valid && deltaIsWithinBounds ro s

/-- `BaseDeltaIterator::Valid` (cc:35-37). -/
def Valid (ro : ReadOpts) (s : BDI) : Bool :=
  if s.statusF.isOK then
    (if s.current_at_base then BaseValid ro s else DeltaValid ro s)
  else false

/-- `BaseDeltaIterator::key` (cc:204-207). -/
def keyOf (s : BDI) : Nat :=
  if s.current_at_base then baseKey s else (deltaEntry s).key

/-- `BaseDeltaIterator::value` (cc:209-212). -/
def valueOf (s : BDI) : Nat :=
  if s.current_at_base then baseValue s else (deltaEntry s).value

/-- `BaseDeltaIterator::AdvanceDelta` (cc:304-310). -/
def AdvanceDelta (s : BDI) : BDI :=
  if IsMovingForward s = true then { s with delta := s.delta.next }
  else { s with delta := s.delta.prev }

/-- `BaseDeltaIterator::AdvanceBase` (cc:312-318). -/
def AdvanceBase (s : BDI) : BDI :=
  if IsMovingForward s = true then { s with base := s.base.next }
  else { s with base := s.base.prev }

/-- Outcome of one iteration of the `UpdateCurrent` while loop: either the
loop returns with the given state, or it continues with it. -/
inductive UCStep where
  | done (t : BDI)
  | cont (t : BDI)
deriving Repr, DecidableEq

/-- `equal_keys_ = false` (top of every loop iteration). -/
def clearEq (s : BDI) : BDI := { s with equal_keys := false }

/-- `equal_keys_ = b`. -/
def setEq (s : BDI) (b : Bool) : BDI := { s with equal_keys := b }

/-- `current_at_base_ = b`. -/
def setCab (s : BDI) (b : Bool) : BDI := { s with current_at_base := b }

/-- The signed comparison of `UpdateCurrent` Case C:
`(IsMovingForward() ? 1 : -1) * Compare(delta.key, base.key)`. -/
def compareDB (s : BDI) : Int :=
  (if IsMovingForward s = true then 1 else -1) *
    cmpZ (deltaEntry s).key (baseKey s)

/-- The explicit upper-bound test of `UpdateCurrent` Case A (cc:363-368). -/
def upperExceeded (ro : ReadOpts) (de : DEntry) : Bool :=
  match ro.iterate_upper_bound with
  | some ub => decide (cmpZ de.key ub ≥ 0)
  | none => false

/-- One iteration of the `UpdateCurrent` loop (cc:337-410).  Branch
conditions read the incoming state (clearing `equal_keys_` does not affect
them); the two sub-iterator error branches of the source are dead here
because both modelled sub-iterators always report OK status. -/
def ucBody (ro : ReadOpts) (s0 : BDI) : UCStep :=
  if BaseValid ro s0 = false then
    if DeltaValid ro s0 = false then .done (clearEq s0)
    else if upperExceeded ro (deltaEntry s0) then .done (clearEq s0)
    else if isTombstone (deltaEntry s0).wtype then
      .cont (AdvanceDelta (clearEq s0))
    else .done (setCab (clearEq s0) false)
  else if DeltaValid ro s0 = false then
    .done (setCab (clearEq s0) true)
  else if compareDB s0 ≤ 0 then
    if isTombstone (deltaEntry s0).wtype = false then
      .done (setEq (setCab (clearEq s0) false) (decide (compareDB s0 = 0)))
    else if decide (compareDB s0 = 0) then
      .cont (AdvanceBase (AdvanceDelta (setEq (clearEq s0) true)))
    else
      .cont (AdvanceDelta (setEq (clearEq s0) false))
  else
    .done (setCab (clearEq s0) true)

/-- The `UpdateCurrent` while loop, fuelled.  Each `cont` advances the
delta iterator one step in the current direction, so
`delta.entries.length + 1` fuel always suffices (`ucLoop_fuel_enough`
below). -/
def ucLoop (ro : ReadOpts) : Nat → BDI → BDI
  | 0, s0 => s0
  | fuel + 1, s0 =>
    match ucBody ro s0 with
    | .done t => t
    | .cont t => ucLoop ro fuel t

/-- `BaseDeltaIterator::UpdateCurrent`: reset the sticky status, then run
the loop. -/
def UpdateCurrent (ro : ReadOpts) (s : BDI) : BDI :=
  ucLoop ro (s.delta.entries.length + 1) { s with statusF := .ok }

/-- `BaseDeltaIterator::Advance` (cc:287-302). -/
def AdvanceOp (ro : ReadOpts) (s : BDI) : BDI :=
  UpdateCurrent ro
    (if s.equal_keys then AdvanceDelta (AdvanceBase s)
     else if s.current_at_base then AdvanceBase s
     else AdvanceDelta s)

/-- `BaseDeltaIterator::SeekToFirst` (cc:39-44). -/
def SeekToFirstOp (ro : ReadOpts) (s : BDI) : BDI :=
  UpdateCurrent ro
    { s with
      progress := .seekToFirst,
      base := s.base.seekToFirst, delta := s.delta.seekToFirst }

/-- `BaseDeltaIterator::SeekToLast` (cc:46-90).  The modelled base iterator
does not check bounds itself, so an upper bound (from `ReadOptions`, the
base has none of its own) triggers the seek-before-bound path on both
sides. -/
def SeekToLastOp (ro : ReadOpts) (s : BDI) : BDI :=
  let b1 :=
    match ro.iterate_upper_bound with
    | some ub =>
      let bs := s.base.seek (fun e => e.key) ub
      if bs.valid = true then bs.prev else bs.seekToLast
    | none => s.base.seekToLast
  let d1 :=
    match ro.iterate_upper_bound with
    | some ub =>
      let ds := s.delta.seek (fun e => e.key) ub
      if ds.valid = true then ds.prev else ds.seekToLast
    | none => s.delta.seekToLast
  UpdateCurrent ro { s with progress := .seekToLast, base := b1, delta := d1 }

/-- `BaseDeltaIterator::Seek` (cc:92-97). -/
def SeekOp (ro : ReadOpts) (k : Nat) (s : BDI) : BDI :=
  UpdateCurrent ro
    { s with
      progress := .seek,
      base := s.base.seek (fun e => e.key) k,
      delta := s.delta.seek (fun e => e.key) k }

/-- `BaseDeltaIterator::SeekForPrev` (cc:99-104). -/
def SeekForPrevOp (ro : ReadOpts) (k : Nat) (s : BDI) : BDI :=
  UpdateCurrent ro
    { s with
      progress := .seekForPrev,
      base := s.base.seekForPrev (fun e => e.key) k,
      delta := s.delta.seekForPrev (fun e => e.key) k }

/-- `BaseDeltaIterator::Next` (cc:106-152). -/
def NextOp (ro : ReadOpts) (s : BDI) : BDI :=
  if Valid ro s = false then
    { s with statusF := .notSupported "Next() on invalid iterator" }
  else
    let s1 :=
      if IsMovingBackward s = true then
        let sE := { s with equal_keys := false }
        if BaseValid ro sE = false then
          (if sE.progress ≠ .seekToLast then
            { sE with base := sE.base.seekToFirst } else sE)
        else if DeltaValid ro sE = false then
          (if sE.progress ≠ .seekToLast then
            { sE with delta := sE.delta.seekToFirst } else sE)
        else
          let sF := { sE with progress := .forward }
          let sA := if sF.current_at_base then AdvanceDelta sF
                    else AdvanceBase sF
          if DeltaValid ro sA = true ∧ BaseValid ro sA = true ∧
              (deltaEntry sA).key = baseKey sA then
            { sA with equal_keys := true }
          else sA
      else s
    AdvanceOp ro { s1 with progress := .forward }

/-- `BaseDeltaIterator::Prev` (cc:154-202).  Unlike `Next`, the equal-keys
recheck sits after the whole direction-change `if`/`else` chain. -/
def PrevOp (ro : ReadOpts) (s : BDI) : BDI :=
  if Valid ro s = false then
    { s with statusF := .notSupported "Prev() on invalid iterator" }
  else
    let s1 :=
      if IsMovingForward s = true then
        let sE := { s with equal_keys := false }
        let sM :=
          if BaseValid ro sE = false then
            (if sE.progress ≠ .seekToFirst then
              { sE with base := sE.base.seekToLast } else sE)
          else if DeltaValid ro sE = false then
            (if sE.progress ≠ .seekToFirst then
              { sE with delta := sE.delta.seekToLast } else sE)
          else
            let sB := { sE with progress := .backward }
            if sB.current_at_base then AdvanceDelta sB else AdvanceBase sB
        if DeltaValid ro sM = true ∧ BaseValid ro sM = true ∧
            (deltaEntry sM).key = baseKey sM then
          { sM with equal_keys := true }
        else sM
      else s
    AdvanceOp ro { s1 with progress := .backward }

/-- A freshly constructed `BaseDeltaIterator` (cc:22-33): undetermined
progress, current at base, no equal keys, OK status, both sub-iterators
unpositioned. -/
def initBDI (base : List BEntry) (delta : List DEntry) : BDI :=
  { progress := .toBeDetermined, current_at_base := true,
    equal_keys := false, statusF := .ok,
    base := ⟨base, none⟩, delta := ⟨delta, none⟩ }

/-- The public repositioning operations of the merging iterator. -/
inductive Op where
  | seekToFirst
  | seekToLast
  | seek (k : Nat)
  | seekForPrev (k : Nat)
  | next
  | prev
deriving Repr, DecidableEq

def applyOp (ro : ReadOpts) : Op → BDI → BDI
  | .seekToFirst => SeekToFirstOp ro
  | .seekToLast => SeekToLastOp ro
  | .seek k => SeekOp ro k
  | .seekForPrev k => SeekForPrevOp ro k
  | .next => NextOp ro
  | .prev => PrevOp ro

def runOps (ro : ReadOpts) (ops : List Op) (s : BDI) : BDI :=
  ops.foldl (fun t o => applyOp ro o t) s

/-- Keys sorted strictly increasing (the base collaborator's contract). -/
def baseSorted (l : List BEntry) : Prop :=
  l.Pairwise (fun a b => a.key < b.key)

/-- Delta entries sorted strictly increasing by key (one mutation per key
in the per-CF index, as the merging iterator assumes). -/
def deltaSorted (l : List DEntry) : Prop :=
  l.Pairwise (fun a b => a.key < b.key)

/-- `ReadOptions` with no bounds. -/
def roNone : ReadOpts := ⟨none, none⟩

/-- A full forward scan: `SeekToFirst`, then emit `(key, value)` and `Next`
while `Valid()`. -/
def scanAux (ro : ReadOpts) : Nat → BDI → List (Nat × Nat)
  | 0, _ => []
  | fuel + 1, s =>
    if Valid ro s = true then
      (keyOf s, valueOf s) :: scanAux ro fuel (NextOp ro s)
    else []

def scanForward (ro : ReadOpts) (base : List BEntry) (delta : List DEntry) :
    List (Nat × Nat) :=
  scanAux ro (base.length + delta.length + 1)
    (SeekToFirstOp ro (initBDI base delta))

/-- Reference two-pointer merge of base and delta (no bounds): delta wins
on equal keys, delta tombstones suppress the key on both sides. -/
def mergeLists : List BEntry → List DEntry → List (Nat × Nat)
  | [], [] => []
  | [], d :: ds =>
    if isTombstone d.wtype then mergeLists [] ds
    else (d.key, d.value) :: mergeLists [] ds
  | b :: bs, [] => (b.key, b.value) :: mergeLists bs []
  | b :: bs, d :: ds =>
    if d.key < b.key then
      (if isTombstone d.wtype then mergeLists (b :: bs) ds
       else (d.key, d.value) :: mergeLists (b :: bs) ds)
    else if d.key = b.key then
      (if isTombstone d.wtype then mergeLists bs ds
       else (d.key, d.value) :: mergeLists bs ds)
    else
      (b.key, b.value) :: mergeLists bs (d :: ds)
termination_by bs ds => bs.length + ds.length

/-! ### `WriteBatchWithIndexInternal::GetFromBatch` (cc:676-783)

The per-CF slice of the skip-list index is a list of `DEntry`s sorted by
user key, with equal keys in insertion (offset) order.  `Seek(key)` builds
a dummy `WriteBatchIndexEntry` with `offset = 0`, so it lands on the first
index entry with key `≥ key` (header:677-682, 550-560); `SeekToLast` on a
single-CF batch is the last entry (header:665-675).  The merge operator is
a parameter: `none` models a column family without `merge_operator`
(`MergeKey` then fails with `InvalidArgument`, cc:645-647), and the
function returning `none` models a failing `TimedFullMerge`. -/

/-- `WriteBatchWithIndexInternal::Result` (.h:291). -/
inductive GFBResult where
  | kFound
  | kMergeInProgress
  | kDeleted
  | kNotFound
  | kError
deriving Repr, DecidableEq

/-- `WriteBatchWithIndexInternal::MergeKey` (cc:637-674), reduced to the
operator application: no operator configured is `InvalidArgument`; a
failing full merge surfaces as the non-OK status `TimedFullMerge`
produces. -/
def MergeKey (mergeOp : Option (Nat → Option Nat → List Nat → Option Nat))
    (key : Nat) (value : Option Nat) (operands : List Nat) : Status × Nat :=
  match mergeOp with
  | none => (.invalidArgument "Merge_operator must be set for column_family", 0)
  | some f =>
    match f key value operands with
    | some r => (.ok, r)
    | none => (.corruption "Error during merge" "", 0)

/-- The first loop of `GetFromBatch` (cc:692-695): starting from
`Seek(key)`, advance while the iterator is valid and still matches the
key, to get just past the key's block of index entries. -/
def gSkipForward (K : Nat) : Nat → Cursor DEntry → Cursor DEntry
  | 0, c => c
  | fuel + 1, c =>
    if c.valid && ((c.currentD dDefault).key == K) then
      gSkipForward K fuel c.next
    else c

/-- State threaded through the second (downward) loop of `GetFromBatch`:
`result`, the pushed merge operands (`MergeContext`), the captured
`entry_value`, the output status `*s`, and the iterator. -/
structure GFBState where
  result : GFBResult
  merge_context : List Nat
  entry_value : Nat
  statusG : Status
  iter : Cursor DEntry
deriving Repr, DecidableEq

/-- The `switch (entry.type)` body of the downward loop (cc:713-740). -/
def gSwitch (st : GFBState) (entry : DEntry) : GFBState :=
  match entry.wtype with
  | .kPutRecord =>
    { st with result := .kFound, entry_value := entry.value }
  | .kMergeRecord =>
    { st with result := .kMergeInProgress,
              merge_context := st.merge_context ++ [entry.value] }
  | .kDeleteRecord => { st with result := .kDeleted }
  | .kSingleDeleteRecord => { st with result := .kDeleted }
  | .kLogDataRecord => st
  | .kXIDRecord => st
  | t =>
    { st with result := .kError,
              statusG := .corruption "Unexpected entry in WriteBatchWithIndex:"
                (toString t.toNat) }

/-- The second loop of `GetFromBatch` (cc:707-757): walk backward while
the entry still matches the key, dispatching on the record type, stopping
on Put/Delete/error, or on a Merge when `overwrite_key` is set. -/
def gScan (K : Nat) (overwrite_key : Bool) : Nat → GFBState → GFBState
  | 0, st => st
  | fuel + 1, st =>
    if st.iter.valid = true then
      if (st.iter.currentD dDefault).key == K then
        let st2 := gSwitch st (st.iter.currentD dDefault)
        if st2.result == .kFound || st2.result == .kDeleted
            || st2.result == .kError then st2
        else if st2.result == .kMergeInProgress && overwrite_key then st2
        else gScan K overwrite_key fuel { st2 with iter := st2.iter.prev }
      else st
    else st

/-- `WriteBatchWithIndexInternal::GetFromBatch` (cc:676-783) on one column
family's index entries, returning `(result, *s, *value, operand stack)`.
The status check after the first loop (cc:697-699) is dropped: the
in-memory iterator's status is always OK (header:696-700).  `*value` is
only written for a final `kFound`; the model returns `0` where the source
leaves the output string untouched. -/
def GetFromBatch (mergeOp : Option (Nat → Option Nat → List Nat → Option Nat))
    (entries : List DEntry) (K : Nat) (overwrite_key : Bool) :
    GFBResult × Status × Nat × List Nat :=
  let c0 := Cursor.seek DEntry.key K ⟨entries, none⟩
  let c1 := gSkipForward K (entries.length + 1) c0
  let c2 := if c1.valid then c1.prev else c1.seekToLast
  let st := gScan K overwrite_key (entries.length + 1)
    ⟨.kNotFound, [], 0, .ok, c2⟩
  if st.statusG.isOK then
    if st.result == .kFound || st.result == .kDeleted then
      if st.merge_context.length > 0 then
        match MergeKey mergeOp K
            (if st.result == .kFound then some st.entry_value else none)
            st.merge_context with
        | (.ok, r) => (.kFound, .ok, r, st.merge_context)
        | (s, _) => (.kError, s, 0, st.merge_context)
      else (st.result, st.statusG, st.entry_value, st.merge_context)
    else (st.result, st.statusG, 0, st.merge_context)
  else (st.result, st.statusG, 0, st.merge_context)

/-- Modelled from the spec (reverse-order lookup law), for the refinement
claim: fold the key's records newest-first — Put stops with `kFound`,
Delete/SingleDelete stop with `kDeleted`, Merge pushes its operand and
leaves `kMergeInProgress` (stopping at once under `overwrite_key`),
LogData/XID markers are skipped, and a range deletion is corruption.
Returns `(result, operand stack, Put value, status)`. -/
def specLookup (ow : Bool) : List DEntry → GFBResult × List Nat × Nat × Status
  | [] => (.kNotFound, [], 0, .ok)
  | e :: rest =>
    match e.wtype with
    | .kPutRecord => (.kFound, [], e.value, .ok)
    | .kDeleteRecord => (.kDeleted, [], 0, .ok)
    | .kSingleDeleteRecord => (.kDeleted, [], 0, .ok)
    | .kMergeRecord =>
      if ow then (.kMergeInProgress, [e.value], 0, .ok)
      else
        match specLookup ow rest with
        | (r, ops, v, s) =>
          (if r = .kNotFound then .kMergeInProgress else r,
           e.value :: ops, v, s)
    | .kLogDataRecord => specLookup ow rest
    | .kXIDRecord => specLookup ow rest
    | .kDeleteRangeRecord =>
      (.kError, [], 0,
       .corruption "Unexpected entry in WriteBatchWithIndex:"
         (toString WriteType.kDeleteRangeRecord.toNat))

/-- Modelled from the spec, for the refinement claim: the documented
`GetFromBatch` behaviour — run the newest-first fold, then, when it ended
in `kFound`/`kDeleted` with operands pending, apply the merge operator
over the Put value (respectively over no base value); on success the
result is `kFound` with the merged bytes. -/
def specGetFromBatch
    (mergeOp : Option (Nat → Option Nat → List Nat → Option Nat))
    (recsNewestFirst : List DEntry) (K : Nat) (ow : Bool) :
    GFBResult × Status × Nat × List Nat :=
  match specLookup ow recsNewestFirst with
  | (r, ops, v, s) =>
    if s.isOK then
      if r == .kFound || r == .kDeleted then
        if ops.length > 0 then
          match MergeKey mergeOp K (if r == .kFound then some v else none)
              ops with
          | (.ok, m) => (.kFound, .ok, m, ops)
          | (s2, _) => (.kError, s2, 0, ops)
        else (r, s, v, ops)
      else (r, s, 0, ops)
    else (r, s, 0, ops)

/-- `pos` of a cursor sitting one slot before index `n` (the shape both
repositioning paths of `GetFromBatch` produce). -/
def posOf (n : Nat) : Option Nat :=
  if n = 0 then none else some (n - 1)

/-! ### Structural lemmas about the merging-iterator model -/

theorem Cursor.fremaining_next_lt {ε} {c : Cursor ε} (h : c.valid = true) :
    c.next.fremaining < c.fremaining := by
  rcases hp : c.pos with _ | i
  · unfold Cursor.valid at h
    rw [hp] at h
    simp at h
  · unfold Cursor.valid at h
    rw [hp] at h
    simp at h
    unfold Cursor.next Cursor.fremaining
    rw [hp]
    by_cases h2 : i + 1 < c.entries.length
    · simp only [h2, if_true]
      omega
    · simp only [h2, if_false]
      omega

theorem Cursor.bremaining_prev_lt {ε} {c : Cursor ε} (h : c.valid = true) :
    c.prev.bremaining < c.bremaining := by
  rcases hp : c.pos with _ | i
  · unfold Cursor.valid at h
    rw [hp] at h
    simp at h
  · unfold Cursor.prev Cursor.bremaining
    rw [hp]
    rcases i with _ | j <;> simp

theorem clearEq_fields (s : BDI) :
    (clearEq s).progress = s.progress ∧ (clearEq s).base = s.base ∧
    (clearEq s).delta = s.delta ∧ (clearEq s).statusF = s.statusF ∧
    (clearEq s).current_at_base = s.current_at_base ∧
    (clearEq s).equal_keys = false :=
  ⟨rfl, rfl, rfl, rfl, rfl, rfl⟩

theorem setEq_fields (s : BDI) (b : Bool) :
    (setEq s b).progress = s.progress ∧ (setEq s b).base = s.base ∧
    (setEq s b).delta = s.delta ∧ (setEq s b).statusF = s.statusF ∧
    (setEq s b).current_at_base = s.current_at_base ∧
    (setEq s b).equal_keys = b :=
  ⟨rfl, rfl, rfl, rfl, rfl, rfl⟩

theorem setCab_fields (s : BDI) (b : Bool) :
    (setCab s b).progress = s.progress ∧ (setCab s b).base = s.base ∧
    (setCab s b).delta = s.delta ∧ (setCab s b).statusF = s.statusF ∧
    (setCab s b).current_at_base = b ∧
    (setCab s b).equal_keys = s.equal_keys :=
  ⟨rfl, rfl, rfl, rfl, rfl, rfl⟩

theorem AdvanceDelta_fields (s : BDI) :
    (AdvanceDelta s).progress = s.progress ∧
    (AdvanceDelta s).base = s.base ∧
    (AdvanceDelta s).statusF = s.statusF ∧
    (AdvanceDelta s).current_at_base = s.current_at_base ∧
    (AdvanceDelta s).equal_keys = s.equal_keys ∧
    (AdvanceDelta s).delta.entries = s.delta.entries := by
  unfold AdvanceDelta
  split <;> exact ⟨rfl, rfl, rfl, rfl, rfl, rfl⟩

theorem AdvanceBase_fields (s : BDI) :
    (AdvanceBase s).progress = s.progress ∧
    (AdvanceBase s).delta = s.delta ∧
    (AdvanceBase s).statusF = s.statusF ∧
    (AdvanceBase s).current_at_base = s.current_at_base ∧
    (AdvanceBase s).equal_keys = s.equal_keys ∧
    (AdvanceBase s).base.entries = s.base.entries := by
  unfold AdvanceBase
  split <;> exact ⟨rfl, rfl, rfl, rfl, rfl, rfl⟩

theorem IsMovingForward_congr {s t : BDI} (hp : t.progress = s.progress) :
    IsMovingForward t = IsMovingForward s := by
  unfold IsMovingForward
  rw [hp]

theorem IsMovingBackward_congr {s t : BDI} (hp : t.progress = s.progress) :
    IsMovingBackward t = IsMovingBackward s := by
  unfold IsMovingBackward
  rw [hp]

theorem baseKey_congr {s t : BDI} (hb : t.base = s.base) :
    baseKey t = baseKey s := by
  unfold baseKey
  rw [hb]

theorem deltaEntry_congr {s t : BDI} (hd : t.delta = s.delta) :
    deltaEntry t = deltaEntry s := by
  unfold deltaEntry
  rw [hd]

theorem BaseValid_congr (ro : ReadOpts) {s t : BDI}
    (hp : t.progress = s.progress) (hb : t.base = s.base) :
    BaseValid ro t = BaseValid ro s := by
  unfold BaseValid baseIsWithinBounds
  rw [IsMovingBackward_congr hp, baseKey_congr hb, hb]

theorem DeltaValid_congr (ro : ReadOpts) {s t : BDI}
    (hp : t.progress = s.progress) (hd : t.delta = s.delta) :
    DeltaValid ro t = DeltaValid ro s := by
  unfold DeltaValid deltaIsWithinBounds
  rw [IsMovingBackward_congr hp, deltaEntry_congr hd, hd]

/-- `IsMovingForward` and `IsMovingBackward` are mutually exclusive and
exhaustive. -/
theorem moving_excl (s : BDI) : IsMovingBackward s = (!IsMovingForward s) := by
  unfold IsMovingForward IsMovingBackward
  by_cases h : s.progress.toNat < 4
  · simp [h]
    omega
  · simp [h]
    omega

/-- Termination measure of the `UpdateCurrent` loop: delta entries
remaining in the current direction. -/
def dirRemaining (s : BDI) : Nat :=
  if IsMovingForward s = true then s.delta.fremaining else s.delta.bremaining

theorem dirRemaining_congr {s t : BDI} (hp : t.progress = s.progress)
    (hd : t.delta = s.delta) : dirRemaining t = dirRemaining s := by
  unfold dirRemaining Cursor.fremaining Cursor.bremaining
  rw [IsMovingForward_congr hp, hd]

theorem DeltaValid_valid {ro : ReadOpts} {s : BDI}
    (h : DeltaValid ro s = true) : s.delta.valid = true := by
  unfold DeltaValid at h
  exact (Bool.and_eq_true_iff.mp h).1

theorem BaseValid_valid {ro : ReadOpts} {s : BDI}
    (h : BaseValid ro s = true) : s.base.valid = true := by
  unfold BaseValid at h
  exact (Bool.and_eq_true_iff.mp h).1

theorem dirRemaining_AdvanceDelta_lt {s : BDI} (h : s.delta.valid = true) :
    dirRemaining (AdvanceDelta s) < dirRemaining s := by
  have hp : (AdvanceDelta s).progress = s.progress := (AdvanceDelta_fields s).1
  unfold dirRemaining
  rw [IsMovingForward_congr hp]
  by_cases hf : IsMovingForward s = true
  · have hAD : (AdvanceDelta s).delta = s.delta.next := by
      unfold AdvanceDelta
      rw [if_pos hf]
    rw [if_pos hf, if_pos hf, hAD]
    exact Cursor.fremaining_next_lt h
  · have hAD : (AdvanceDelta s).delta = s.delta.prev := by
      unfold AdvanceDelta
      rw [if_neg hf]
    rw [if_neg hf, if_neg hf, hAD]
    exact Cursor.bremaining_prev_lt h

theorem dirRemaining_AdvanceBase (s : BDI) :
    dirRemaining (AdvanceBase s) = dirRemaining s :=
  dirRemaining_congr (AdvanceBase_fields s).1 (AdvanceBase_fields s).2.1

/-- The three `cont` shapes a loop-body iteration can produce. -/
theorem ucBody_cont_shape (ro : ReadOpts) {s0 t : BDI}
    (h : ucBody ro s0 = .cont t) :
    DeltaValid ro s0 = true ∧
    (t = AdvanceDelta (clearEq s0) ∨
     t = AdvanceBase (AdvanceDelta (setEq (clearEq s0) true)) ∨
     t = AdvanceDelta (setEq (clearEq s0) false)) := by
  unfold ucBody at h
  split at h
  · split at h
    · exact UCStep.noConfusion h
    · split at h
      · exact UCStep.noConfusion h
      · split at h
        · rename_i hB hD hub htomb
          refine ⟨by cases hDv : DeltaValid ro s0 <;> simp [hDv] at hD ⊢, ?_⟩
          exact Or.inl (UCStep.cont.inj h).symm
        · exact UCStep.noConfusion h
  · split at h
    · exact UCStep.noConfusion h
    · split at h
      · split at h
        · exact UCStep.noConfusion h
        · split at h
          · rename_i hB hD hcmp htomb heq
            refine ⟨by cases hDv : DeltaValid ro s0 <;> simp [hDv] at hD ⊢, ?_⟩
            exact Or.inr (Or.inl (UCStep.cont.inj h).symm)
          · rename_i hB hD hcmp htomb heq
            refine ⟨by cases hDv : DeltaValid ro s0 <;> simp [hDv] at hD ⊢, ?_⟩
            exact Or.inr (Or.inr (UCStep.cont.inj h).symm)
      · exact UCStep.noConfusion h

/-- A `cont` outcome of the loop body keeps progress, status and both entry
lists, and strictly decreases the termination measure. -/
theorem ucBody_cont (ro : ReadOpts) {s0 t : BDI}
    (h : ucBody ro s0 = .cont t) :
    t.progress = s0.progress ∧ t.statusF = s0.statusF ∧
    t.delta.entries = s0.delta.entries ∧ t.base.entries = s0.base.entries ∧
    dirRemaining t < dirRemaining s0 := by
  obtain ⟨hDv, hshape⟩ := ucBody_cont_shape ro h
  have hval : s0.delta.valid = true := DeltaValid_valid hDv
  rcases hshape with ht | ht | ht <;> subst ht
  · exact ⟨(AdvanceDelta_fields _).1, (AdvanceDelta_fields _).2.2.1,
      (AdvanceDelta_fields _).2.2.2.2.2,
      congrArg Cursor.entries (AdvanceDelta_fields _).2.1,
      dirRemaining_AdvanceDelta_lt hval⟩
  · have hAD := AdvanceDelta_fields (setEq (clearEq s0) true)
    have hAB := AdvanceBase_fields (AdvanceDelta (setEq (clearEq s0) true))
    refine ⟨hAB.1.trans hAD.1, hAB.2.2.1.trans hAD.2.2.1, ?_, ?_, ?_⟩
    · exact (congrArg Cursor.entries hAB.2.1).trans hAD.2.2.2.2.2
    · exact hAB.2.2.2.2.2.trans (congrArg Cursor.entries hAD.2.1)
    · rw [dirRemaining_AdvanceBase]
      exact dirRemaining_AdvanceDelta_lt hval
  · exact ⟨(AdvanceDelta_fields _).1, (AdvanceDelta_fields _).2.2.1,
      (AdvanceDelta_fields _).2.2.2.2.2,
      congrArg Cursor.entries (AdvanceDelta_fields _).2.1,
      dirRemaining_AdvanceDelta_lt hval⟩

theorem bool_not_false {b : Bool} (h : ¬ (b = false)) : b = true := by
  cases b
  · exact absurd rfl h
  · rfl

theorem bool_not_true {b : Bool} (h : ¬ (b = true)) : b = false := by
  cases b
  · rfl
  · exact absurd rfl h

/-- The six `done` shapes a loop-body iteration can produce (the source's
return paths: finished, out of upper bound, expose delta with base
exhausted, expose base with delta exhausted, Case C expose delta, Case C
expose base). -/
theorem ucBody_done_shape (ro : ReadOpts) {s0 t : BDI}
    (h : ucBody ro s0 = .done t) :
    (BaseValid ro s0 = false ∧ DeltaValid ro s0 = false ∧ t = clearEq s0) ∨
    (BaseValid ro s0 = false ∧ DeltaValid ro s0 = true ∧
      upperExceeded ro (deltaEntry s0) = true ∧ t = clearEq s0) ∨
    (BaseValid ro s0 = false ∧ DeltaValid ro s0 = true ∧
      upperExceeded ro (deltaEntry s0) = false ∧
      isTombstone (deltaEntry s0).wtype = false ∧
      t = setCab (clearEq s0) false) ∨
    (BaseValid ro s0 = true ∧ DeltaValid ro s0 = false ∧
      t = setCab (clearEq s0) true) ∨
    (BaseValid ro s0 = true ∧ DeltaValid ro s0 = true ∧ compareDB s0 ≤ 0 ∧
      isTombstone (deltaEntry s0).wtype = false ∧
      t = setEq (setCab (clearEq s0) false) (decide (compareDB s0 = 0))) ∨
    (BaseValid ro s0 = true ∧ DeltaValid ro s0 = true ∧ 0 < compareDB s0 ∧
      t = setCab (clearEq s0) true) := by
  unfold ucBody at h
  split at h
  · rename_i hB
    split at h
    · rename_i hD
      exact Or.inl ⟨hB, hD, (UCStep.done.inj h).symm⟩
    · rename_i hD
      split at h
      · rename_i hub
        exact Or.inr (Or.inl ⟨hB, bool_not_false hD, hub,
          (UCStep.done.inj h).symm⟩)
      · rename_i hub
        split at h
        · exact UCStep.noConfusion h
        · rename_i htomb
          exact Or.inr (Or.inr (Or.inl ⟨hB, bool_not_false hD,
            bool_not_true hub, bool_not_true htomb,
            (UCStep.done.inj h).symm⟩))
  · rename_i hB
    split at h
    · rename_i hD
      exact Or.inr (Or.inr (Or.inr (Or.inl ⟨bool_not_false hB, hD,
        (UCStep.done.inj h).symm⟩)))
    · rename_i hD
      split at h
      · rename_i hcmp
        split at h
        · rename_i htomb
          exact Or.inr (Or.inr (Or.inr (Or.inr (Or.inl ⟨bool_not_false hB,
            bool_not_false hD, hcmp, htomb, (UCStep.done.inj h).symm⟩))))
        · split at h
          · exact UCStep.noConfusion h
          · exact UCStep.noConfusion h
      · rename_i hcmp
        exact Or.inr (Or.inr (Or.inr (Or.inr (Or.inr ⟨bool_not_false hB,
          bool_not_false hD, by omega, (UCStep.done.inj h).symm⟩))))

/-- Every `done` state is a flag-update of the loop-entry state: progress,
status and both cursors are unchanged. -/
theorem ucBody_done_fields (ro : ReadOpts) {s0 t : BDI}
    (h : ucBody ro s0 = .done t) :
    t.progress = s0.progress ∧ t.statusF = s0.statusF ∧
    t.base = s0.base ∧ t.delta = s0.delta := by
  rcases ucBody_done_shape ro h with
    ⟨_, _, ht⟩ | ⟨_, _, _, ht⟩ | ⟨_, _, _, _, ht⟩ | ⟨_, _, ht⟩ |
    ⟨_, _, _, _, ht⟩ | ⟨_, _, _, ht⟩ <;> subst ht <;>
    exact ⟨rfl, rfl, rfl, rfl⟩

theorem dirRemaining_le_len {ro : ReadOpts} {s : BDI}
    (hDv : DeltaValid ro s = true) :
    dirRemaining s ≤ s.delta.entries.length := by
  have hval := DeltaValid_valid hDv
  unfold Cursor.valid at hval
  rcases hp : s.delta.pos with _ | i
  · rw [hp] at hval
    simp at hval
  · rw [hp] at hval
    simp at hval
    unfold dirRemaining Cursor.fremaining Cursor.bremaining
    rw [hp]
    dsimp only
    split <;> omega

/-- The `UpdateCurrent` loop, given enough fuel, always ends in a `done`
state of its last iteration, with progress, status and entry lists carried
through from the entry state. -/
theorem ucLoop_exit (ro : ReadOpts) : ∀ fuel s,
    (dirRemaining s < fuel ∨ s.delta.entries.length < fuel) →
    ∃ s', ucBody ro s' = .done (ucLoop ro fuel s) ∧
      s'.progress = s.progress ∧ s'.statusF = s.statusF ∧
      s'.delta.entries = s.delta.entries ∧
      s'.base.entries = s.base.entries := by
  intro fuel
  induction fuel with
  | zero => intro s h; omega
  | succ n ih =>
    intro s h
    cases hb : ucBody ro s with
    | done t =>
      refine ⟨s, ?_, rfl, rfl, rfl, rfl⟩
      simp only [ucLoop, hb]
    | cont t =>
      obtain ⟨hp, hst, hde, hbe, hlt⟩ := ucBody_cont ro hb
      have hDv := (ucBody_cont_shape ro hb).1
      have hle := dirRemaining_le_len hDv
      have hn : dirRemaining t < n ∨ t.delta.entries.length < n := by
        left
        rcases h with h | h
        · omega
        · omega
      obtain ⟨s', h1, h2, h3, h4, h5⟩ := ih t hn
      refine ⟨s', ?_, h2.trans hp, h3.trans hst, h4.trans hde, h5.trans hbe⟩
      simpa only [ucLoop, hb] using h1

/-- `UpdateCurrent ro s` is the `done` state of a loop iteration whose
entry state has `s`'s progress, OK status and `s`'s entry lists. -/
theorem UpdateCurrent_exit (ro : ReadOpts) (s : BDI) :
    ∃ s', ucBody ro s' = .done (UpdateCurrent ro s) ∧
      s'.progress = s.progress ∧ s'.statusF = .ok ∧
      s'.delta.entries = s.delta.entries ∧
      s'.base.entries = s.base.entries := by
  unfold UpdateCurrent
  exact ucLoop_exit ro (s.delta.entries.length + 1) { s with statusF := .ok }
    (Or.inr (by simp))

/-- `UpdateCurrent` always leaves the sticky status OK (it is reset on
entry and the modelled sub-iterators never error). -/
theorem UpdateCurrent_statusF (ro : ReadOpts) (s : BDI) :
    (UpdateCurrent ro s).statusF = .ok := by
  obtain ⟨s', hdone, _, hst, _, _⟩ := UpdateCurrent_exit ro s
  rw [(ucBody_done_fields ro hdone).2.1, hst]

/-- The ordering invariants of a settled state (spec section 4.5), as they
hold at every `done` exit of the `UpdateCurrent` loop with both
sub-iterators valid. -/
def SettledInv (t : BDI) : Prop :=
  (IsMovingForward t = true →
    (t.current_at_base = true → baseKey t ≤ (deltaEntry t).key) ∧
    (t.current_at_base = false → (deltaEntry t).key ≤ baseKey t)) ∧
  (IsMovingBackward t = true →
    (t.current_at_base = true → (deltaEntry t).key ≤ baseKey t) ∧
    (t.current_at_base = false → baseKey t ≤ (deltaEntry t).key)) ∧
  (t.equal_keys = true ↔ baseKey t = (deltaEntry t).key)

theorem settled_inv (ro : ReadOpts) {s0 t : BDI}
    (h : ucBody ro s0 = .done t)
    (hB : BaseValid ro t = true) (hD : DeltaValid ro t = true) :
    SettledInv t := by
  have hfields := ucBody_done_fields ro h
  have hBs : BaseValid ro s0 = BaseValid ro t :=
    (BaseValid_congr ro hfields.1 hfields.2.2.1).symm
  have hDs : DeltaValid ro s0 = DeltaValid ro t :=
    (DeltaValid_congr ro hfields.1 hfields.2.2.2).symm
  rcases ucBody_done_shape ro h with
    ⟨hb, _, _⟩ | ⟨hb, _, _, _⟩ | ⟨hb, _, _, _, _⟩ | ⟨_, hd, _⟩ |
    ⟨_, _, hcmp, _, ht⟩ | ⟨_, _, hcmp, ht⟩
  · rw [hBs, hB] at hb
    exact Bool.noConfusion hb
  · rw [hBs, hB] at hb
    exact Bool.noConfusion hb
  · rw [hBs, hB] at hb
    exact Bool.noConfusion hb
  · rw [hDs, hD] at hd
    exact Bool.noConfusion hd
  · -- Case C, delta exposed: compare ≤ 0
    subst ht
    have hcab : (setEq (setCab (clearEq s0) false)
        (decide (compareDB s0 = 0))).current_at_base = false := rfl
    unfold compareDB at hcmp
    refine ⟨?_, ?_, ?_⟩
    · intro hf
      have hf0 : IsMovingForward s0 = true := hf
      rw [if_pos hf0, one_mul] at hcmp
      refine ⟨fun hc => absurd (hcab.symm.trans hc) (by decide), fun _ => ?_⟩
      show (deltaEntry s0).key ≤ baseKey s0
      exact cmpZ_le_zero_iff.mp hcmp
    · intro hbw
      have hbw0 : IsMovingBackward s0 = true := hbw
      have hf0 : IsMovingForward s0 = false := by
        have := moving_excl s0
        rw [hbw0] at this
        cases hx : IsMovingForward s0
        · rfl
        · rw [hx] at this
          exact absurd this.symm (by decide)
      rw [hf0, if_neg (show ¬ ((false : Bool) = true) by decide)] at hcmp
      have hge : 0 ≤ cmpZ (deltaEntry s0).key (baseKey s0) := by omega
      refine ⟨fun hc => absurd (hcab.symm.trans hc) (by decide), fun _ => ?_⟩
      show baseKey s0 ≤ (deltaEntry s0).key
      exact cmpZ_ge_zero_iff.mp hge
    · show decide ((if IsMovingForward s0 = true then (1 : Int) else -1) *
          cmpZ (deltaEntry s0).key (baseKey s0) = 0) = true ↔
        baseKey s0 = (deltaEntry s0).key
      rw [decide_eq_true_iff]
      constructor
      · intro h0
        have : cmpZ (deltaEntry s0).key (baseKey s0) = 0 := by
          split at h0 <;> omega
        exact (cmpZ_eq_zero_iff.mp this).symm
      · intro hkk
        have : cmpZ (deltaEntry s0).key (baseKey s0) = 0 :=
          cmpZ_eq_zero_iff.mpr hkk.symm
        rw [this]
        split <;> ring
  · -- Case C, base exposed: compare > 0
    subst ht
    have hcab : (setCab (clearEq s0) true).current_at_base = true := rfl
    unfold compareDB at hcmp
    refine ⟨?_, ?_, ?_⟩
    · intro hf
      have hf0 : IsMovingForward s0 = true := hf
      rw [if_pos hf0, one_mul] at hcmp
      refine ⟨fun _ => ?_, fun hc => absurd (hcab.symm.trans hc) (by decide)⟩
      show baseKey s0 ≤ (deltaEntry s0).key
      exact le_of_lt (cmpZ_pos_iff.mp hcmp)
    · intro hbw
      have hbw0 : IsMovingBackward s0 = true := hbw
      have hf0 : IsMovingForward s0 = false := by
        have := moving_excl s0
        rw [hbw0] at this
        cases hx : IsMovingForward s0
        · rfl
        · rw [hx] at this
          exact absurd this.symm (by decide)
      rw [hf0, if_neg (show ¬ ((false : Bool) = true) by decide)] at hcmp
      have hlt : cmpZ (deltaEntry s0).key (baseKey s0) < 0 := by omega
      refine ⟨fun _ => ?_, fun hc => absurd (hcab.symm.trans hc) (by decide)⟩
      show (deltaEntry s0).key ≤ baseKey s0
      exact le_of_lt (cmpZ_neg_iff.mp hlt)
    · have heq : (setCab (clearEq s0) true).equal_keys = false := rfl
      rw [heq]
      constructor
      · intro hc
        exact absurd hc (by decide)
      · intro hkk
        exfalso
        have : cmpZ (deltaEntry s0).key (baseKey s0) = 0 :=
          cmpZ_eq_zero_iff.mpr hkk.symm
        rw [this] at hcmp
        split at hcmp <;> omega

/-- Every repositioning operation either produces an `UpdateCurrent`
result or (for `Next`/`Prev` on an invalid iterator) an invalid state. -/
theorem applyOp_shape (ro : ReadOpts) (op : Op) (s : BDI) :
    (∃ x, applyOp ro op s = UpdateCurrent ro x) ∨
    Valid ro (applyOp ro op s) = false := by
  cases op
  · exact Or.inl ⟨_, rfl⟩
  · exact Or.inl ⟨_, rfl⟩
  · exact Or.inl ⟨_, rfl⟩
  · exact Or.inl ⟨_, rfl⟩
  · show (∃ x, NextOp ro s = UpdateCurrent ro x) ∨
      Valid ro (NextOp ro s) = false
    unfold NextOp
    by_cases hv : Valid ro s = false
    · rw [if_pos hv]
      exact Or.inr rfl
    · rw [if_neg hv]
      exact Or.inl ⟨_, rfl⟩
  · show (∃ x, PrevOp ro s = UpdateCurrent ro x) ∨
      Valid ro (PrevOp ro s) = false
    unfold PrevOp
    by_cases hv : Valid ro s = false
    · rw [if_pos hv]
      exact Or.inr rfl
    · rw [if_neg hv]
      exact Or.inl ⟨_, rfl⟩

/-- C5: after every repositioning operation that leaves the merging
iterator Valid with both sub-iterators valid, the orientation invariants
hold: forward, the current side's key is `≤` the other side's
(inequalities flipped backward), and `equal_keys` holds iff the two keys
are equal. -/
theorem C5_settled_invariants (ro : ReadOpts) (op : Op) (s : BDI)
    (hv : Valid ro (applyOp ro op s) = true)
    (hB : BaseValid ro (applyOp ro op s) = true)
    (hD : DeltaValid ro (applyOp ro op s) = true) :
    SettledInv (applyOp ro op s) := by
  rcases applyOp_shape ro op s with ⟨x, hx⟩ | hbad
  · rw [hx] at hB hD ⊢
    obtain ⟨s', hdone, _, _, _, _⟩ := UpdateCurrent_exit ro x
    exact settled_inv ro hdone hB hD
  · rw [hv] at hbad
    exact Bool.noConfusion hbad

/-- Witness for C5: `SeekToFirst` on base `[(1,10)]`, delta `[(2,Put,20)]`
settles at base key 1 with delta key 2 and the invariants hold. -/
theorem C5_settled_invariants_witness :
    SettledInv (applyOp roNone .seekToFirst
      (initBDI [⟨1, 10⟩] [⟨2, .kPutRecord, 20⟩])) :=
  C5_settled_invariants roNone .seekToFirst
    (initBDI [⟨1, 10⟩] [⟨2, .kPutRecord, 20⟩])
    (by decide) (by decide) (by decide)

/-- C10: `Next`/`Prev` on an invalid merging iterator set the sticky
`NotSupported` status; every subsequent seek resets the sticky status to
OK at the start of `UpdateCurrent` (so it is not permanent), and `Valid()`
can become true again — shown on a concrete run in the last conjunct. -/
theorem C10_not_supported_reset (ro : ReadOpts) (s : BDI) (k : Nat) :
    (Valid ro s = false →
      (NextOp ro s).statusF = .notSupported "Next() on invalid iterator" ∧
      (PrevOp ro s).statusF = .notSupported "Prev() on invalid iterator") ∧
    (SeekToFirstOp ro s).statusF = .ok ∧
    (SeekToLastOp ro s).statusF = .ok ∧
    (SeekOp ro k s).statusF = .ok ∧
    (SeekForPrevOp ro k s).statusF = .ok ∧
    (Valid roNone (NextOp roNone (initBDI [⟨1, 10⟩] [])) = false ∧
      (NextOp roNone (initBDI [⟨1, 10⟩] [])).statusF =
        .notSupported "Next() on invalid iterator" ∧
      Valid roNone (SeekToFirstOp roNone
        (NextOp roNone (initBDI [⟨1, 10⟩] []))) = true) := by
  refine ⟨?_, ?_, ?_, ?_, ?_, by decide⟩
  · intro hv
    constructor
    · unfold NextOp
      rw [if_pos hv]
    · unfold PrevOp
      rw [if_pos hv]
  · exact UpdateCurrent_statusF ro _
  · exact UpdateCurrent_statusF ro _
  · exact UpdateCurrent_statusF ro _
  · exact UpdateCurrent_statusF ro _

/-- Witness for C10 at a concrete invalid iterator. -/
theorem C10_not_supported_reset_witness :
    (NextOp roNone (initBDI [⟨1, 10⟩] [])).statusF =
      Status.notSupported "Next() on invalid iterator" :=
  ((C10_not_supported_reset roNone (initBDI [⟨1, 10⟩] []) 0).1 (by decide)).1

/-- C4 counterexample: with `iterate_lower_bound = 2` a forward scan
exposes base key 1 (below the lower bound), and with
`iterate_upper_bound = 2` a `SeekForPrev` exposes base key 3 (not below
the upper bound) — so `lower ≤ k < upper` does not hold at every Valid
position. -/
theorem C4_bounds_counterexample :
    (Valid ⟨some 2, none⟩
        (SeekToFirstOp ⟨some 2, none⟩ (initBDI [⟨1, 1⟩] [])) = true ∧
      keyOf (SeekToFirstOp ⟨some 2, none⟩ (initBDI [⟨1, 1⟩] [])) = 1) ∧
    (Valid ⟨none, some 2⟩
        (SeekForPrevOp ⟨none, some 2⟩ 3 (initBDI [⟨3, 3⟩] [])) = true ∧
      keyOf (SeekForPrevOp ⟨none, some 2⟩ 3 (initBDI [⟨3, 3⟩] [])) = 3) := by
  decide

/-- C4 amended: at every Valid position the merging iterator enforces the
upper bound while forward-oriented (`k < upper`) and the lower bound while
backward-oriented (`lower ≤ k`), on both the base and the delta side; the
other bound of each orientation is not enforced (`ChecksLowerBound()` is
false). -/
theorem C4_bounds_amended (ro : ReadOpts) (s : BDI)
    (h : Valid ro s = true) :
    (IsMovingForward s = true →
      ∀ ub, ro.iterate_upper_bound = some ub → keyOf s < ub) ∧
    (IsMovingBackward s = true →
      ∀ lb, ro.iterate_lower_bound = some lb → lb ≤ keyOf s) := by
  unfold Valid at h
  split at h
  · constructor
    · intro hf ub hub
      have hbw : IsMovingBackward s = false := by
        rw [moving_excl, hf]
        rfl
      split at h <;> rename_i hcab
      · have hwb := (Bool.and_eq_true_iff.mp h).2
        unfold baseIsWithinBounds at hwb
        rw [hbw, if_neg (show ¬ ((false : Bool) = true) by decide), hub]
          at hwb
        simp only [decide_eq_true_eq] at hwb
        unfold keyOf
        rw [if_pos hcab]
        exact cmpZ_neg_iff.mp hwb
      · have hwb := (Bool.and_eq_true_iff.mp h).2
        unfold deltaIsWithinBounds at hwb
        rw [hbw, if_neg (show ¬ ((false : Bool) = true) by decide), hub]
          at hwb
        simp only [decide_eq_true_eq] at hwb
        unfold keyOf
        rw [if_neg hcab]
        exact cmpZ_neg_iff.mp hwb
    · intro hbw lb hlb
      split at h <;> rename_i hcab
      · have hwb := (Bool.and_eq_true_iff.mp h).2
        unfold baseIsWithinBounds at hwb
        rw [hbw, if_pos rfl, hlb] at hwb
        simp only [decide_eq_true_eq] at hwb
        unfold keyOf
        rw [if_pos hcab]
        exact cmpZ_ge_zero_iff.mp hwb
      · have hwb := (Bool.and_eq_true_iff.mp h).2
        unfold deltaIsWithinBounds at hwb
        rw [hbw, if_pos rfl, hlb] at hwb
        simp only [decide_eq_true_eq] at hwb
        unfold keyOf
        rw [if_neg hcab]
        exact cmpZ_ge_zero_iff.mp hwb
  · exact Bool.noConfusion h

/-- Witness for the amended C4 at a concrete bounded forward scan. -/
theorem C4_bounds_amended_witness :
    keyOf (SeekToFirstOp ⟨some 1, some 5⟩ (initBDI [⟨2, 2⟩] [])) < 5 :=
  (C4_bounds_amended ⟨some 1, some 5⟩
    (SeekToFirstOp ⟨some 1, some 5⟩ (initBDI [⟨2, 2⟩] []))
    (by decide)).1 (by decide) 5 rfl

/-! ### The forward scan computes the two-pointer merge (for C1) -/

theorem list_getD_lt {α : Type} (l : List α) (d : α) {i : Nat}
    (h : i < l.length) : l.getD i d = l[i] := by
  rw [List.getD_eq_getElem?_getD, List.getElem?_eq_getElem h]
  rfl

theorem list_getD_ge {α : Type} (l : List α) (d : α) {i : Nat}
    (h : l.length ≤ i) : l.getD i d = d := by
  rw [List.getD_eq_getElem?_getD, List.getElem?_eq_none h]
  rfl

/-- Cursor at position `i` of `l` (invalid when out of range). -/
def mkCursor {ε : Type} (l : List ε) (i : Nat) : Cursor ε :=
  ⟨l, if i < l.length then some i else none⟩

theorem mkCursor_valid {ε : Type} (l : List ε) (i : Nat) :
    (mkCursor l i).valid = decide (i < l.length) := by
  unfold mkCursor Cursor.valid
  by_cases h : i < l.length
  · rw [if_pos h]
  · rw [if_neg h]
    exact (decide_eq_false h).symm

theorem mkCursor_next {ε : Type} (l : List ε) (i : Nat) :
    (mkCursor l i).next = mkCursor l (i + 1) := by
  unfold mkCursor Cursor.next
  by_cases h : i < l.length
  · rw [if_pos h]
  · rw [if_neg h]
    have h2 : ¬ (i + 1 < l.length) := by omega
    rw [if_neg h2]

theorem mkCursor_currentD {ε : Type} (l : List ε) (i : Nat) (d : ε) :
    (mkCursor l i).currentD d = l.getD i d := by
  unfold mkCursor Cursor.currentD
  by_cases h : i < l.length
  · rw [if_pos h]
  · rw [if_neg h, list_getD_ge l d (by omega)]

theorem seekToFirst_mkCursor {ε : Type} (c : Cursor ε) :
    c.seekToFirst = mkCursor c.entries 0 := by
  unfold Cursor.seekToFirst mkCursor
  by_cases h : c.entries.isEmpty
  · have hlen : c.entries.length = 0 := by
      rwa [List.isEmpty_iff_length_eq_zero] at h
    rw [if_pos h, if_neg (by omega)]
  · have hlen : 0 < c.entries.length := by
      rw [List.isEmpty_iff_length_eq_zero] at h
      omega
    rw [if_neg h, if_pos hlen]

/-- State of the merging iterator during a forward traversal: position `i`
into the base list, `j` into the delta list. -/
def fwdState (p : Progress) (cab eq : Bool) (B : List BEntry)
    (D : List DEntry) (i j : Nat) : BDI :=
  { progress := p, current_at_base := cab, equal_keys := eq,
    statusF := .ok, base := mkCursor B i, delta := mkCursor D j }

theorem roNone_baseInBounds (s : BDI) : baseIsWithinBounds roNone s = true := by
  unfold baseIsWithinBounds roNone
  split <;> rfl

theorem roNone_deltaInBounds (s : BDI) :
    deltaIsWithinBounds roNone s = true := by
  unfold deltaIsWithinBounds roNone
  split <;> rfl

theorem fwd_BaseValid (p : Progress) (cab eq : Bool) (B : List BEntry)
    (D : List DEntry) (i j : Nat) :
    BaseValid roNone (fwdState p cab eq B D i j) = decide (i < B.length) := by
  unfold BaseValid
  rw [roNone_baseInBounds, Bool.and_true]
  exact mkCursor_valid B i

theorem fwd_DeltaValid (p : Progress) (cab eq : Bool) (B : List BEntry)
    (D : List DEntry) (i j : Nat) :
    DeltaValid roNone (fwdState p cab eq B D i j) = decide (j < D.length) := by
  unfold DeltaValid
  rw [roNone_deltaInBounds, Bool.and_true]
  exact mkCursor_valid D j

theorem fwd_deltaEntry (p : Progress) (cab eq : Bool) (B : List BEntry)
    (D : List DEntry) (i j : Nat) :
    deltaEntry (fwdState p cab eq B D i j) = D.getD j dDefault :=
  mkCursor_currentD D j dDefault

theorem fwd_baseKey (p : Progress) (cab eq : Bool) (B : List BEntry)
    (D : List DEntry) (i j : Nat) :
    baseKey (fwdState p cab eq B D i j) = (B.getD i bDefault).key := by
  show ((mkCursor B i).currentD bDefault).key = _
  rw [mkCursor_currentD B i bDefault]

theorem fwd_IsMovingForward {p : Progress} (hp : p.toNat < 4)
    (cab eq : Bool) (B : List BEntry) (D : List DEntry) (i j : Nat) :
    IsMovingForward (fwdState p cab eq B D i j) = true :=
  decide_eq_true hp

theorem fwd_IsMovingBackward {p : Progress} (hp : p.toNat < 4)
    (cab eq : Bool) (B : List BEntry) (D : List DEntry) (i j : Nat) :
    IsMovingBackward (fwdState p cab eq B D i j) = false := by
  rw [moving_excl, fwd_IsMovingForward hp]
  rfl

theorem fwd_compareDB {p : Progress} (hp : p.toNat < 4)
    (cab eq : Bool) (B : List BEntry) (D : List DEntry) (i j : Nat) :
    compareDB (fwdState p cab eq B D i j) =
      cmpZ (D.getD j dDefault).key (B.getD i bDefault).key := by
  unfold compareDB
  rw [if_pos (fwd_IsMovingForward hp cab eq B D i j), one_mul,
    fwd_deltaEntry, fwd_baseKey]

theorem fwd_AdvanceDelta {p : Progress} (hp : p.toNat < 4)
    (cab eq : Bool) (B : List BEntry) (D : List DEntry) (i j : Nat) :
    AdvanceDelta (fwdState p cab eq B D i j) =
      fwdState p cab eq B D i (j + 1) := by
  unfold AdvanceDelta
  rw [if_pos (fwd_IsMovingForward hp cab eq B D i j)]
  show ({ fwdState p cab eq B D i j with
    delta := (mkCursor D j).next } : BDI) = _
  rw [mkCursor_next]
  rfl

theorem fwd_AdvanceBase {p : Progress} (hp : p.toNat < 4)
    (cab eq : Bool) (B : List BEntry) (D : List DEntry) (i j : Nat) :
    AdvanceBase (fwdState p cab eq B D i j) =
      fwdState p cab eq B D (i + 1) j := by
  unfold AdvanceBase
  rw [if_pos (fwd_IsMovingForward hp cab eq B D i j)]
  show ({ fwdState p cab eq B D i j with
    base := (mkCursor B i).next } : BDI) = _
  rw [mkCursor_next]
  rfl

theorem fwd_Valid (p : Progress) (cab eq : Bool) (B : List BEntry)
    (D : List DEntry) (i j : Nat) :
    Valid roNone (fwdState p cab eq B D i j) =
      (if cab then decide (i < B.length) else decide (j < D.length)) := by
  unfold Valid
  rw [if_pos (show Status.isOK (fwdState p cab eq B D i j).statusF = true
    from rfl)]
  cases cab
  · rw [if_neg (show ¬ ((fwdState p false eq B D i j).current_at_base = true)
      from fun hc => Bool.noConfusion hc), if_neg (by decide)]
    exact fwd_DeltaValid p false eq B D i j
  · rw [if_pos (show (fwdState p true eq B D i j).current_at_base = true
      from rfl), if_pos rfl]
    exact fwd_BaseValid p true eq B D i j

theorem fwd_keyOf_base (p : Progress) (eq : Bool) (B : List BEntry)
    (D : List DEntry) (i j : Nat) :
    keyOf (fwdState p true eq B D i j) = (B.getD i bDefault).key := by
  unfold keyOf
  rw [if_pos (show (fwdState p true eq B D i j).current_at_base = true
    from rfl)]
  exact fwd_baseKey p true eq B D i j

theorem fwd_keyOf_delta (p : Progress) (eq : Bool) (B : List BEntry)
    (D : List DEntry) (i j : Nat) :
    keyOf (fwdState p false eq B D i j) = (D.getD j dDefault).key := by
  unfold keyOf
  rw [if_neg (show ¬ ((fwdState p false eq B D i j).current_at_base = true)
    from fun hc => Bool.noConfusion hc)]
  exact congrArg DEntry.key (fwd_deltaEntry p false eq B D i j)

theorem fwd_valueOf_base (p : Progress) (eq : Bool) (B : List BEntry)
    (D : List DEntry) (i j : Nat) :
    valueOf (fwdState p true eq B D i j) = (B.getD i bDefault).value := by
  unfold valueOf
  rw [if_pos (show (fwdState p true eq B D i j).current_at_base = true
    from rfl)]
  show ((mkCursor B i).currentD bDefault).value = _
  rw [mkCursor_currentD B i bDefault]

theorem fwd_valueOf_delta (p : Progress) (eq : Bool) (B : List BEntry)
    (D : List DEntry) (i j : Nat) :
    valueOf (fwdState p false eq B D i j) = (D.getD j dDefault).value := by
  unfold valueOf
  rw [if_neg (show ¬ ((fwdState p false eq B D i j).current_at_base = true)
    from fun hc => Bool.noConfusion hc)]
  exact congrArg DEntry.value (fwd_deltaEntry p false eq B D i j)

theorem UpdateCurrent_fwdState (p : Progress) (cab eq : Bool)
    (B : List BEntry) (D : List DEntry) (i j : Nat) :
    UpdateCurrent roNone (fwdState p cab eq B D i j) =
      ucLoop roNone (D.length + 1) (fwdState p cab eq B D i j) := rfl

theorem progress_forward_toNat : Progress.forward.toNat < 4 := by decide

/-- `Next` at a settled forward position currently on the delta side with
distinct keys: advance delta and rerun `UpdateCurrent`. -/
theorem fwd_NextOp_delta {p : Progress} (hp : p.toNat < 4) (B : List BEntry)
    (D : List DEntry) (i j : Nat)
    (hv : Valid roNone (fwdState p false false B D i j) = true) :
    NextOp roNone (fwdState p false false B D i j) =
      ucLoop roNone (D.length + 1)
        (fwdState .forward false false B D i (j + 1)) := by
  unfold NextOp
  rw [if_neg (show ¬ (Valid roNone (fwdState p false false B D i j) = false)
    from fun hc => by rw [hv] at hc; exact Bool.noConfusion hc)]
  rw [if_neg (show
    ¬ (IsMovingBackward (fwdState p false false B D i j) = true)
    from fun hc => by
      rw [fwd_IsMovingBackward hp] at hc
      exact Bool.noConfusion hc)]
  show AdvanceOp roNone (fwdState .forward false false B D i j) = _
  unfold AdvanceOp
  rw [if_neg (show
    ¬ ((fwdState .forward false false B D i j).equal_keys = true)
    from fun hc => Bool.noConfusion hc)]
  rw [if_neg (show
    ¬ ((fwdState .forward false false B D i j).current_at_base = true)
    from fun hc => Bool.noConfusion hc)]
  rw [fwd_AdvanceDelta progress_forward_toNat]
  exact UpdateCurrent_fwdState .forward false false B D i (j + 1)

/-- `Next` at a settled forward position currently on the base side with
distinct keys: advance base and rerun `UpdateCurrent`. -/
theorem fwd_NextOp_base {p : Progress} (hp : p.toNat < 4) (B : List BEntry)
    (D : List DEntry) (i j : Nat)
    (hv : Valid roNone (fwdState p true false B D i j) = true) :
    NextOp roNone (fwdState p true false B D i j) =
      ucLoop roNone (D.length + 1)
        (fwdState .forward true false B D (i + 1) j) := by
  unfold NextOp
  rw [if_neg (show ¬ (Valid roNone (fwdState p true false B D i j) = false)
    from fun hc => by rw [hv] at hc; exact Bool.noConfusion hc)]
  rw [if_neg (show
    ¬ (IsMovingBackward (fwdState p true false B D i j) = true)
    from fun hc => by
      rw [fwd_IsMovingBackward hp] at hc
      exact Bool.noConfusion hc)]
  show AdvanceOp roNone (fwdState .forward true false B D i j) = _
  unfold AdvanceOp
  rw [if_neg (show
    ¬ ((fwdState .forward true false B D i j).equal_keys = true)
    from fun hc => Bool.noConfusion hc)]
  rw [if_pos (show
    (fwdState .forward true false B D i j).current_at_base = true from rfl)]
  rw [fwd_AdvanceBase progress_forward_toNat]
  exact UpdateCurrent_fwdState .forward true false B D (i + 1) j

/-- `Next` at a settled forward position with equal keys: advance both
sides and rerun `UpdateCurrent`. -/
theorem fwd_NextOp_equal {p : Progress} (hp : p.toNat < 4) (cab : Bool)
    (B : List BEntry) (D : List DEntry) (i j : Nat)
    (hv : Valid roNone (fwdState p cab true B D i j) = true) :
    NextOp roNone (fwdState p cab true B D i j) =
      ucLoop roNone (D.length + 1)
        (fwdState .forward cab true B D (i + 1) (j + 1)) := by
  unfold NextOp
  rw [if_neg (show ¬ (Valid roNone (fwdState p cab true B D i j) = false)
    from fun hc => by rw [hv] at hc; exact Bool.noConfusion hc)]
  rw [if_neg (show
    ¬ (IsMovingBackward (fwdState p cab true B D i j) = true)
    from fun hc => by
      rw [fwd_IsMovingBackward hp] at hc
      exact Bool.noConfusion hc)]
  show AdvanceOp roNone (fwdState .forward cab true B D i j) = _
  unfold AdvanceOp
  rw [if_pos (show
    (fwdState .forward cab true B D i j).equal_keys = true from rfl)]
  rw [fwd_AdvanceBase progress_forward_toNat,
    fwd_AdvanceDelta progress_forward_toNat]
  exact UpdateCurrent_fwdState .forward cab true B D (i + 1) (j + 1)

theorem mergeLists_nil_nil : mergeLists [] [] = [] := by
  simp only [mergeLists]

theorem mergeLists_nil_cons (d : DEntry) (ds : List DEntry) :
    mergeLists [] (d :: ds) =
      if isTombstone d.wtype then mergeLists [] ds
      else (d.key, d.value) :: mergeLists [] ds := by
  simp only [mergeLists]

theorem mergeLists_cons_nil (b : BEntry) (bs : List BEntry) :
    mergeLists (b :: bs) [] = (b.key, b.value) :: mergeLists bs [] := by
  simp only [mergeLists]

theorem mergeLists_cons_cons (b : BEntry) (bs : List BEntry) (d : DEntry)
    (ds : List DEntry) :
    mergeLists (b :: bs) (d :: ds) =
      if d.key < b.key then
        (if isTombstone d.wtype then mergeLists (b :: bs) ds
         else (d.key, d.value) :: mergeLists (b :: bs) ds)
      else if d.key = b.key then
        (if isTombstone d.wtype then mergeLists bs ds
         else (d.key, d.value) :: mergeLists bs ds)
      else
        (b.key, b.value) :: mergeLists bs (d :: ds) := by
  simp only [mergeLists]

/-- Master lemma: from any forward position `(i, j)`, running
`UpdateCurrent` and then scanning forward emits exactly the two-pointer
merge of the remaining suffixes. -/
theorem scan_loop (B : List BEntry) (D : List DEntry) :
    ∀ m fuelS fuelU i j : Nat, ∀ cab eq : Bool, ∀ p : Progress,
    (B.length - i) + (D.length - j) ≤ m → m < fuelS →
    D.length - j < fuelU → p.toNat < 4 →
    scanAux roNone fuelS (ucLoop roNone fuelU (fwdState p cab eq B D i j)) =
      mergeLists (B.drop i) (D.drop j) := by
  intro m
  induction m using Nat.strong_induction_on with
  | _ m ih =>
    intro fuelS fuelU i j cab eq p hm hfs hfu hp
    cases fuelU with
    | zero => omega
    | succ fU =>
    cases fuelS with
    | zero => omega
    | succ fS =>
    by_cases hi : i < B.length <;> by_cases hj : j < D.length
    · -- both sides unfinished (Case C of UpdateCurrent)
      have hde : deltaEntry (fwdState p cab eq B D i j) = D[j] := by
        rw [fwd_deltaEntry, list_getD_lt D dDefault hj]
      have hcmp : compareDB (fwdState p cab eq B D i j) =
          cmpZ (D[j]).key (B[i]).key := by
        rw [fwd_compareDB hp, list_getD_lt D dDefault hj,
          list_getD_lt B bDefault hi]
      rcases Nat.lt_trichotomy (D[j]).key (B[i]).key with hdb | hdb | hdb
      · have hc0 : cmpZ (D[j]).key (B[i]).key = -1 := cmpZ_lt hdb
        by_cases ht : isTombstone (D[j]).wtype = true
        · -- delta strictly first and a tombstone: skip it
          have hstep : ucBody roNone (fwdState p cab eq B D i j) =
              .cont (AdvanceDelta
                (setEq (clearEq (fwdState p cab eq B D i j)) false)) := by
            unfold ucBody
            rw [fwd_BaseValid, decide_eq_true hi, if_neg (by decide),
              fwd_DeltaValid, decide_eq_true hj, if_neg (by decide)]
            rw [hcmp, hc0, if_pos (show ((-1 : Int) ≤ 0) by decide)]
            rw [hde, ht, if_neg (by decide)]
            rw [if_neg (show ¬ (decide ((-1 : Int) = 0) = true) by decide)]
          simp only [ucLoop, hstep]
          rw [show setEq (clearEq (fwdState p cab eq B D i j)) false =
            fwdState p cab false B D i j from rfl, fwd_AdvanceDelta hp]
          rw [ih ((B.length - i) + (D.length - (j + 1))) (by omega)
            (fS + 1) fU i (j + 1) cab false p (le_refl _) (by omega)
            (by omega) hp]
          rw [List.drop_eq_getElem_cons hi, List.drop_eq_getElem_cons hj,
            mergeLists_cons_cons, if_pos hdb, if_pos ht,
            ← List.drop_eq_getElem_cons hi]
        · -- delta strictly first, not a tombstone: expose it
          have ht' := bool_not_true ht
          have hstep : ucBody roNone (fwdState p cab eq B D i j) =
              .done (setEq (setCab (clearEq (fwdState p cab eq B D i j))
                false) false) := by
            unfold ucBody
            rw [fwd_BaseValid, decide_eq_true hi, if_neg (by decide),
              fwd_DeltaValid, decide_eq_true hj, if_neg (by decide)]
            rw [hcmp, hc0, if_pos (show ((-1 : Int) ≤ 0) by decide)]
            rw [hde, ht', if_pos rfl]
            rw [show decide ((-1 : Int) = 0) = false from by decide]
          simp only [ucLoop, hstep]
          rw [show setEq (setCab (clearEq (fwdState p cab eq B D i j))
            false) false = fwdState p false false B D i j from rfl]
          have hv : Valid roNone (fwdState p false false B D i j) = true := by
            rw [fwd_Valid, if_neg (by decide)]
            exact decide_eq_true hj
          simp only [scanAux]
          rw [hv, if_pos rfl]
          rw [fwd_keyOf_delta, fwd_valueOf_delta, list_getD_lt D dDefault hj]
          rw [fwd_NextOp_delta hp B D i j hv]
          rw [ih ((B.length - i) + (D.length - (j + 1))) (by omega) fS
            (D.length + 1) i (j + 1) false false .forward (le_refl _)
            (by omega) (by omega) progress_forward_toNat]
          rw [List.drop_eq_getElem_cons hi, List.drop_eq_getElem_cons hj,
            mergeLists_cons_cons, if_pos hdb,
            if_neg (show ¬ (isTombstone (D[j]).wtype = true) from
              fun hc => by rw [ht'] at hc; exact Bool.noConfusion hc),
            ← List.drop_eq_getElem_cons hi]
      · have hc0 : cmpZ (D[j]).key (B[i]).key = 0 := cmpZ_eq_zero_iff.mpr hdb
        by_cases ht : isTombstone (D[j]).wtype = true
        · -- equal keys and a tombstone: skip both
          have hstep : ucBody roNone (fwdState p cab eq B D i j) =
              .cont (AdvanceBase (AdvanceDelta
                (setEq (clearEq (fwdState p cab eq B D i j)) true))) := by
            unfold ucBody
            rw [fwd_BaseValid, decide_eq_true hi, if_neg (by decide),
              fwd_DeltaValid, decide_eq_true hj, if_neg (by decide)]
            rw [hcmp, hc0, if_pos (show ((0 : Int) ≤ 0) by decide)]
            rw [hde, ht, if_neg (by decide)]
            rw [if_pos (show decide ((0 : Int) = 0) = true by decide)]
          simp only [ucLoop, hstep]
          rw [show setEq (clearEq (fwdState p cab eq B D i j)) true =
            fwdState p cab true B D i j from rfl, fwd_AdvanceDelta hp,
            fwd_AdvanceBase hp]
          rw [ih ((B.length - (i + 1)) + (D.length - (j + 1))) (by omega)
            (fS + 1) fU (i + 1) (j + 1) cab true p (le_refl _) (by omega)
            (by omega) hp]
          rw [List.drop_eq_getElem_cons hi, List.drop_eq_getElem_cons hj,
            mergeLists_cons_cons,
            if_neg (show ¬ ((D[j]).key < (B[i]).key) by omega),
            if_pos hdb, if_pos ht]
        · -- equal keys, not a tombstone: expose delta with equal_keys
          have ht' := bool_not_true ht
          have hstep : ucBody roNone (fwdState p cab eq B D i j) =
              .done (setEq (setCab (clearEq (fwdState p cab eq B D i j))
                false) true) := by
            unfold ucBody
            rw [fwd_BaseValid, decide_eq_true hi, if_neg (by decide),
              fwd_DeltaValid, decide_eq_true hj, if_neg (by decide)]
            rw [hcmp, hc0, if_pos (show ((0 : Int) ≤ 0) by decide)]
            rw [hde, ht', if_pos rfl]
            rw [show decide ((0 : Int) = 0) = true from by decide]
          simp only [ucLoop, hstep]
          rw [show setEq (setCab (clearEq (fwdState p cab eq B D i j))
            false) true = fwdState p false true B D i j from rfl]
          have hv : Valid roNone (fwdState p false true B D i j) = true := by
            rw [fwd_Valid, if_neg (by decide)]
            exact decide_eq_true hj
          simp only [scanAux]
          rw [hv, if_pos rfl]
          rw [fwd_keyOf_delta, fwd_valueOf_delta, list_getD_lt D dDefault hj]
          rw [fwd_NextOp_equal hp false B D i j hv]
          rw [ih ((B.length - (i + 1)) + (D.length - (j + 1))) (by omega)
            fS (D.length + 1) (i + 1) (j + 1) false true .forward
            (le_refl _) (by omega) (by omega) progress_forward_toNat]
          rw [List.drop_eq_getElem_cons hi, List.drop_eq_getElem_cons hj,
            mergeLists_cons_cons,
            if_neg (show ¬ ((D[j]).key < (B[i]).key) by omega),
            if_pos hdb,
            if_neg (show ¬ (isTombstone (D[j]).wtype = true) from
              fun hc => by rw [ht'] at hc; exact Bool.noConfusion hc)]
      · -- base strictly first: expose base
        have hc0 : cmpZ (D[j]).key (B[i]).key = 1 := cmpZ_gt hdb
        have hstep : ucBody roNone (fwdState p cab eq B D i j) =
            .done (setCab (clearEq (fwdState p cab eq B D i j)) true) := by
          unfold ucBody
          rw [fwd_BaseValid, decide_eq_true hi, if_neg (by decide),
            fwd_DeltaValid, decide_eq_true hj, if_neg (by decide)]
          rw [hcmp, hc0, if_neg (show ¬ ((1 : Int) ≤ 0) by decide)]
        simp only [ucLoop, hstep]
        rw [show setCab (clearEq (fwdState p cab eq B D i j)) true =
          fwdState p true false B D i j from rfl]
        have hv : Valid roNone (fwdState p true false B D i j) = true := by
          rw [fwd_Valid, if_pos rfl]
          exact decide_eq_true hi
        simp only [scanAux]
        rw [hv, if_pos rfl]
        rw [fwd_keyOf_base, fwd_valueOf_base, list_getD_lt B bDefault hi]
        rw [fwd_NextOp_base hp B D i j hv]
        rw [ih ((B.length - (i + 1)) + (D.length - j)) (by omega) fS
          (D.length + 1) (i + 1) j true false .forward (le_refl _)
          (by omega) (by omega) progress_forward_toNat]
        rw [List.drop_eq_getElem_cons hi, List.drop_eq_getElem_cons hj,
          mergeLists_cons_cons,
          if_neg (show ¬ ((D[j]).key < (B[i]).key) by omega),
          if_neg (show ¬ ((D[j]).key = (B[i]).key) by omega),
          ← List.drop_eq_getElem_cons hj]
    · -- base unfinished, delta finished (Case B of UpdateCurrent)
      have hstep : ucBody roNone (fwdState p cab eq B D i j) =
          .done (setCab (clearEq (fwdState p cab eq B D i j)) true) := by
        unfold ucBody
        rw [fwd_BaseValid, decide_eq_true hi, if_neg (by decide),
          fwd_DeltaValid, decide_eq_false hj, if_pos rfl]
      simp only [ucLoop, hstep]
      rw [show setCab (clearEq (fwdState p cab eq B D i j)) true =
        fwdState p true false B D i j from rfl]
      have hv : Valid roNone (fwdState p true false B D i j) = true := by
        rw [fwd_Valid, if_pos rfl]
        exact decide_eq_true hi
      simp only [scanAux]
      rw [hv, if_pos rfl]
      rw [fwd_keyOf_base, fwd_valueOf_base, list_getD_lt B bDefault hi]
      rw [fwd_NextOp_base hp B D i j hv]
      rw [ih ((B.length - (i + 1)) + (D.length - j)) (by omega) fS
        (D.length + 1) (i + 1) j true false .forward (le_refl _)
        (by omega) (by omega) progress_forward_toNat]
      rw [List.drop_eq_nil_of_le (show D.length ≤ j by omega),
        List.drop_eq_getElem_cons hi, mergeLists_cons_nil]
    · -- base finished, delta unfinished (Case A of UpdateCurrent)
      have hde : deltaEntry (fwdState p cab eq B D i j) = D[j] := by
        rw [fwd_deltaEntry, list_getD_lt D dDefault hj]
      have hue : upperExceeded roNone
          (deltaEntry (fwdState p cab eq B D i j)) = false := rfl
      by_cases ht : isTombstone (D[j]).wtype = true
      · have hstep : ucBody roNone (fwdState p cab eq B D i j) =
            .cont (AdvanceDelta (clearEq (fwdState p cab eq B D i j))) := by
          unfold ucBody
          rw [fwd_BaseValid, decide_eq_false hi, if_pos rfl,
            fwd_DeltaValid, decide_eq_true hj, if_neg (by decide)]
          rw [hue, if_neg (by decide)]
          rw [hde, ht, if_pos rfl]
        simp only [ucLoop, hstep]
        rw [show clearEq (fwdState p cab eq B D i j) =
          fwdState p cab false B D i j from rfl, fwd_AdvanceDelta hp]
        rw [ih ((B.length - i) + (D.length - (j + 1))) (by omega)
          (fS + 1) fU i (j + 1) cab false p (le_refl _) (by omega)
          (by omega) hp]
        rw [List.drop_eq_getElem_cons hj,
          List.drop_eq_nil_of_le (show B.length ≤ i by omega),
          mergeLists_nil_cons, if_pos ht]
      · have ht' := bool_not_true ht
        have hstep : ucBody roNone (fwdState p cab eq B D i j) =
            .done (setCab (clearEq (fwdState p cab eq B D i j)) false) := by
          unfold ucBody
          rw [fwd_BaseValid, decide_eq_false hi, if_pos rfl,
            fwd_DeltaValid, decide_eq_true hj, if_neg (by decide)]
          rw [hue, if_neg (by decide)]
          rw [hde, ht', if_neg (by decide)]
        simp only [ucLoop, hstep]
        rw [show setCab (clearEq (fwdState p cab eq B D i j)) false =
          fwdState p false false B D i j from rfl]
        have hv : Valid roNone (fwdState p false false B D i j) = true := by
          rw [fwd_Valid, if_neg (by decide)]
          exact decide_eq_true hj
        simp only [scanAux]
        rw [hv, if_pos rfl]
        rw [fwd_keyOf_delta, fwd_valueOf_delta, list_getD_lt D dDefault hj]
        rw [fwd_NextOp_delta hp B D i j hv]
        rw [ih ((B.length - i) + (D.length - (j + 1))) (by omega) fS
          (D.length + 1) i (j + 1) false false .forward (le_refl _)
          (by omega) (by omega) progress_forward_toNat]
        rw [List.drop_eq_getElem_cons hj,
          List.drop_eq_nil_of_le (show B.length ≤ i by omega),
          mergeLists_nil_cons,
          if_neg (show ¬ (isTombstone (D[j]).wtype = true) from
            fun hc => by rw [ht'] at hc; exact Bool.noConfusion hc)]
    · -- both finished
      have hstep : ucBody roNone (fwdState p cab eq B D i j) =
          .done (clearEq (fwdState p cab eq B D i j)) := by
        unfold ucBody
        rw [fwd_BaseValid, decide_eq_false hi, if_pos rfl,
          fwd_DeltaValid, decide_eq_false hj, if_pos rfl]
      simp only [ucLoop, hstep]
      rw [show clearEq (fwdState p cab eq B D i j) =
        fwdState p cab false B D i j from rfl]
      have hv : Valid roNone (fwdState p cab false B D i j) = false := by
        rw [fwd_Valid]
        cases cab
        · rw [if_neg (by decide)]
          exact decide_eq_false hj
        · rw [if_pos rfl]
          exact decide_eq_false hi
      simp only [scanAux]
      rw [hv, if_neg (by decide)]
      rw [List.drop_eq_nil_of_le (show B.length ≤ i by omega),
        List.drop_eq_nil_of_le (show D.length ≤ j by omega),
        mergeLists_nil_nil]

/-- The full forward scan of the merging iterator (no bounds, the default
`read_options = nullptr` configuration) equals the two-pointer merge. -/
theorem scanForward_eq_mergeLists (B : List BEntry) (D : List DEntry) :
    scanForward roNone B D = mergeLists B D := by
  have h1 : (initBDI B D).base.seekToFirst = mkCursor B 0 :=
    seekToFirst_mkCursor _
  have h2 : (initBDI B D).delta.seekToFirst = mkCursor D 0 :=
    seekToFirst_mkCursor _
  unfold scanForward SeekToFirstOp
  rw [h1, h2]
  have hmain := scan_loop B D (B.length + D.length)
    (B.length + D.length + 1) (D.length + 1) 0 0 true false .seekToFirst
    (by omega) (by omega) (by omega) (by decide)
  rw [List.drop_zero, List.drop_zero] at hmain
  exact hmain

/-- Keys strictly below every entry of both inputs never appear in the
merge. -/
theorem mergeLists_not_mem_of_lt {k : Nat} :
    ∀ (B : List BEntry) (D : List DEntry),
    (∀ e ∈ B, k < e.key) → (∀ e ∈ D, k < e.key) →
    ∀ v, (k, v) ∉ mergeLists B D := by
  intro B D
  induction B, D using mergeLists.induct with
  | case1 =>
    intro _ _ v h
    rw [mergeLists_nil_nil] at h
    exact absurd h (List.not_mem_nil _)
  | case2 d ds ht ih =>
    intro hB hD v h
    rw [mergeLists_nil_cons, if_pos ht] at h
    exact ih hB (fun e he => hD e (List.mem_cons_of_mem d he)) v h
  | case3 d ds ht ih =>
    intro hB hD v h
    rw [mergeLists_nil_cons, if_neg ht] at h
    rcases List.mem_cons.mp h with hh | hh
    · have := hD d (List.mem_cons_self d ds)
      have hk : k = d.key := congrArg Prod.fst hh
      omega
    · exact ih hB (fun e he => hD e (List.mem_cons_of_mem d he)) v hh
  | case4 b bs ih =>
    intro hB hD v h
    rw [mergeLists_cons_nil] at h
    rcases List.mem_cons.mp h with hh | hh
    · have := hB b (List.mem_cons_self b bs)
      have hk : k = b.key := congrArg Prod.fst hh
      omega
    · exact ih (fun e he => hB e (List.mem_cons_of_mem b he)) hD v hh
  | case5 b bs d ds hlt ht ih =>
    intro hB hD v h
    rw [mergeLists_cons_cons, if_pos hlt, if_pos ht] at h
    exact ih hB (fun e he => hD e (List.mem_cons_of_mem d he)) v h
  | case6 b bs d ds hlt ht ih =>
    intro hB hD v h
    rw [mergeLists_cons_cons, if_pos hlt, if_neg ht] at h
    rcases List.mem_cons.mp h with hh | hh
    · have := hD d (List.mem_cons_self d ds)
      have hk : k = d.key := congrArg Prod.fst hh
      omega
    · exact ih hB (fun e he => hD e (List.mem_cons_of_mem d he)) v hh
  | case7 b bs d ds hnlt heq ht ih =>
    intro hB hD v h
    rw [mergeLists_cons_cons, if_neg hnlt, if_pos heq, if_pos ht] at h
    exact ih (fun e he => hB e (List.mem_cons_of_mem b he))
      (fun e he => hD e (List.mem_cons_of_mem d he)) v h
  | case8 b bs d ds hnlt heq ht ih =>
    intro hB hD v h
    rw [mergeLists_cons_cons, if_neg hnlt, if_pos heq, if_neg ht] at h
    rcases List.mem_cons.mp h with hh | hh
    · have := hD d (List.mem_cons_self d ds)
      have hk : k = d.key := congrArg Prod.fst hh
      omega
    · exact ih (fun e he => hB e (List.mem_cons_of_mem b he))
        (fun e he => hD e (List.mem_cons_of_mem d he)) v hh
  | case9 b bs d ds hnlt hne ih =>
    intro hB hD v h
    rw [mergeLists_cons_cons, if_neg hnlt, if_neg hne] at h
    rcases List.mem_cons.mp h with hh | hh
    · have := hB b (List.mem_cons_self b bs)
      have hk : k = b.key := congrArg Prod.fst hh
      omega
    · exact ih (fun e he => hB e (List.mem_cons_of_mem b he)) hD v hh

theorem pairwise_head_lt {ε : Type} (keyf : ε → Nat) {x : ε} {xs : List ε}
    (h : (x :: xs).Pairwise (fun a b => keyf a < keyf b)) :
    ∀ e ∈ xs, keyf x < keyf e :=
  (List.pairwise_cons.mp h).1

theorem pairwise_tail {ε : Type} (keyf : ε → Nat) {x : ε} {xs : List ε}
    (h : (x :: xs).Pairwise (fun a b => keyf a < keyf b)) :
    xs.Pairwise (fun a b => keyf a < keyf b) :=
  (List.pairwise_cons.mp h).2

/-- Tombstone completeness on the merge: a key carrying a delta
`Delete`/`SingleDelete` never appears in the merged output. -/
theorem mergeLists_tombstone_not_mem {k : Nat} {t : WriteType} {dv : Nat} :
    ∀ (B : List BEntry) (D : List DEntry),
    baseSorted B → deltaSorted D →
    (⟨k, t, dv⟩ : DEntry) ∈ D → isTombstone t = true →
    ∀ v, (k, v) ∉ mergeLists B D := by
  intro B D
  induction B, D using mergeLists.induct with
  | case1 =>
    intro _ _ hmem _ v _
    exact absurd hmem (List.not_mem_nil _)
  | case2 d ds htd ih =>
    intro hBs hDs hmem ht v hv
    rw [mergeLists_nil_cons, if_pos htd] at hv
    rcases List.mem_cons.mp hmem with hh | hh
    · have hk : k = d.key := by rw [← hh]
      exact mergeLists_not_mem_of_lt [] ds (fun e he => absurd he
          (List.not_mem_nil e))
        (fun e he => hk ▸ pairwise_head_lt DEntry.key hDs e he) v hv
    · exact ih hBs (pairwise_tail DEntry.key hDs) hh ht v hv
  | case3 d ds htd ih =>
    intro hBs hDs hmem ht v hv
    rw [mergeLists_nil_cons, if_neg htd] at hv
    rcases List.mem_cons.mp hmem with hh | hh
    · rw [← hh] at htd
      exact absurd ht htd
    · have hdk : d.key < k := pairwise_head_lt DEntry.key hDs _ hh
      rcases List.mem_cons.mp hv with hp | hp
      · have : k = d.key := congrArg Prod.fst hp
        omega
      · exact ih hBs (pairwise_tail DEntry.key hDs) hh ht v hp
  | case4 b bs ih =>
    intro _ _ hmem _ v _
    exact absurd hmem (List.not_mem_nil _)
  | case5 b bs d ds hlt htd ih =>
    intro hBs hDs hmem ht v hv
    rw [mergeLists_cons_cons, if_pos hlt, if_pos htd] at hv
    rcases List.mem_cons.mp hmem with hh | hh
    · have hk : k = d.key := by rw [← hh]
      refine mergeLists_not_mem_of_lt (b :: bs) ds ?_ ?_ v hv
      · intro e he
        rcases List.mem_cons.mp he with he1 | he1
        · rw [he1]; omega
        · have := pairwise_head_lt BEntry.key hBs e he1
          omega
      · intro e he
        have := pairwise_head_lt DEntry.key hDs e he
        omega
    · exact ih hBs (pairwise_tail DEntry.key hDs) hh ht v hv
  | case6 b bs d ds hlt htd ih =>
    intro hBs hDs hmem ht v hv
    rw [mergeLists_cons_cons, if_pos hlt, if_neg htd] at hv
    rcases List.mem_cons.mp hmem with hh | hh
    · rw [← hh] at htd
      exact absurd ht htd
    · have hdk : d.key < k := pairwise_head_lt DEntry.key hDs _ hh
      rcases List.mem_cons.mp hv with hp | hp
      · have : k = d.key := congrArg Prod.fst hp
        omega
      · exact ih hBs (pairwise_tail DEntry.key hDs) hh ht v hp
  | case7 b bs d ds hnlt heq htd ih =>
    intro hBs hDs hmem ht v hv
    rw [mergeLists_cons_cons, if_neg hnlt, if_pos heq, if_pos htd] at hv
    rcases List.mem_cons.mp hmem with hh | hh
    · have hk : k = d.key := by rw [← hh]
      refine mergeLists_not_mem_of_lt bs ds ?_ ?_ v hv
      · intro e he
        have := pairwise_head_lt BEntry.key hBs e he
        omega
      · intro e he
        have := pairwise_head_lt DEntry.key hDs e he
        omega
    · exact ih (pairwise_tail BEntry.key hBs) (pairwise_tail DEntry.key hDs)
        hh ht v hv
  | case8 b bs d ds hnlt heq htd ih =>
    intro hBs hDs hmem ht v hv
    rw [mergeLists_cons_cons, if_neg hnlt, if_pos heq, if_neg htd] at hv
    rcases List.mem_cons.mp hmem with hh | hh
    · rw [← hh] at htd
      exact absurd ht htd
    · have hdk : d.key < k := pairwise_head_lt DEntry.key hDs _ hh
      rcases List.mem_cons.mp hv with hp | hp
      · have : k = d.key := congrArg Prod.fst hp
        omega
      · exact ih (pairwise_tail BEntry.key hBs) (pairwise_tail DEntry.key hDs)
          hh ht v hp
  | case9 b bs d ds hnlt hne ih =>
    intro hBs hDs hmem ht v hv
    rw [mergeLists_cons_cons, if_neg hnlt, if_neg hne] at hv
    have hdk : d.key ≤ k := by
      rcases List.mem_cons.mp hmem with hh | hh
      · have : k = d.key := by rw [← hh]
        omega
      · have h2 : d.key < k := pairwise_head_lt DEntry.key hDs _ hh
        omega
    rcases List.mem_cons.mp hv with hp | hp
    · have hk : k = b.key := congrArg Prod.fst hp
      omega
    · exact ih (pairwise_tail BEntry.key hBs) hDs hmem ht v hp

/-- Put precedence on the merge: when both sides hold key `k` and the
delta record is not a tombstone, the merged output contains `k` exactly
once, carrying the delta's value. -/
theorem mergeLists_put_mem {k vb vd : Nat} {t : WriteType} :
    ∀ (B : List BEntry) (D : List DEntry),
    baseSorted B → deltaSorted D →
    (⟨k, vb⟩ : BEntry) ∈ B → (⟨k, t, vd⟩ : DEntry) ∈ D →
    isTombstone t = false →
    (k, vd) ∈ mergeLists B D ∧ ∀ v, (k, v) ∈ mergeLists B D → v = vd := by
  intro B D
  induction B, D using mergeLists.induct with
  | case1 =>
    intro _ _ hb _ _
    exact absurd hb (List.not_mem_nil _)
  | case2 d ds htd ih =>
    intro _ _ hb _ _
    exact absurd hb (List.not_mem_nil _)
  | case3 d ds htd ih =>
    intro _ _ hb _ _
    exact absurd hb (List.not_mem_nil _)
  | case4 b bs ih =>
    intro _ _ _ hd _
    exact absurd hd (List.not_mem_nil _)
  | case5 b bs d ds hlt htd ih =>
    intro hBs hDs hb hd ht
    rw [mergeLists_cons_cons, if_pos hlt, if_pos htd]
    rcases List.mem_cons.mp hd with hh | hh
    · have ht' : isTombstone d.wtype = false := by rw [← hh]; exact ht
      exact absurd (ht'.symm.trans htd) (by decide)
    · exact ih hBs (pairwise_tail DEntry.key hDs) hb hh ht
  | case6 b bs d ds hlt htd ih =>
    intro hBs hDs hb hd ht
    rw [mergeLists_cons_cons, if_pos hlt, if_neg htd]
    have hd' : (⟨k, t, vd⟩ : DEntry) ∈ ds := by
      rcases List.mem_cons.mp hd with hh | hh
      · exfalso
        have hk : k = d.key := by rw [← hh]
        rcases List.mem_cons.mp hb with hbb | hbb
        · have : k = b.key := by rw [← hbb]
          omega
        · have h3 : b.key < k := pairwise_head_lt BEntry.key hBs _ hbb
          omega
      · exact hh
    have hih := ih hBs (pairwise_tail DEntry.key hDs) hb hd' ht
    refine ⟨List.mem_cons_of_mem _ hih.1, ?_⟩
    intro v hv
    rcases List.mem_cons.mp hv with hp | hp
    · exfalso
      have hk : k = d.key := congrArg Prod.fst hp
      rcases List.mem_cons.mp hb with hbb | hbb
      · have : k = b.key := by rw [← hbb]
        omega
      · have h3 : b.key < k := pairwise_head_lt BEntry.key hBs _ hbb
        omega
    · exact hih.2 v hp
  | case7 b bs d ds hnlt heq htd ih =>
    intro hBs hDs hb hd ht
    have hd' : (⟨k, t, vd⟩ : DEntry) ∈ ds := by
      rcases List.mem_cons.mp hd with hh | hh
      · have ht' : isTombstone d.wtype = false := by rw [← hh]; exact ht
        exact absurd (ht'.symm.trans htd) (by decide)
      · exact hh
    have hk : d.key < k := pairwise_head_lt DEntry.key hDs _ hd'
    have hb' : (⟨k, vb⟩ : BEntry) ∈ bs := by
      rcases List.mem_cons.mp hb with hbb | hbb
      · exfalso
        have : k = b.key := by rw [← hbb]
        omega
      · exact hbb
    rw [mergeLists_cons_cons, if_neg hnlt, if_pos heq, if_pos htd]
    exact ih (pairwise_tail BEntry.key hBs) (pairwise_tail DEntry.key hDs)
      hb' hd' ht
  | case8 b bs d ds hnlt heq htd ih =>
    intro hBs hDs hb hd ht
    rw [mergeLists_cons_cons, if_neg hnlt, if_pos heq, if_neg htd]
    rcases List.mem_cons.mp hb with hbb | hbb
    · have hkb : k = b.key := by rw [← hbb]
      have hdd : (⟨k, t, vd⟩ : DEntry) = d := by
        rcases List.mem_cons.mp hd with hh | hh
        · exact hh
        · exfalso
          have h2 : d.key < k := pairwise_head_lt DEntry.key hDs _ hh
          omega
      constructor
      · rw [← hdd]
        exact List.mem_cons_self _ _
      · intro v hv
        rcases List.mem_cons.mp hv with hp | hp
        · have hv2 : v = d.value := congrArg Prod.snd hp
          rw [hv2, ← hdd]
        · exfalso
          refine mergeLists_not_mem_of_lt bs ds ?_ ?_ v hp
          · intro e he
            have h3 : b.key < e.key := pairwise_head_lt BEntry.key hBs e he
            omega
          · intro e he
            have h3 : d.key < e.key := pairwise_head_lt DEntry.key hDs e he
            omega
    · have hkb : b.key < k := pairwise_head_lt BEntry.key hBs _ hbb
      have hd' : (⟨k, t, vd⟩ : DEntry) ∈ ds := by
        rcases List.mem_cons.mp hd with hh | hh
        · exfalso
          have : k = d.key := by rw [← hh]
          omega
        · exact hh
      have hih := ih (pairwise_tail BEntry.key hBs)
        (pairwise_tail DEntry.key hDs) hbb hd' ht
      refine ⟨List.mem_cons_of_mem _ hih.1, ?_⟩
      intro v hv
      rcases List.mem_cons.mp hv with hp | hp
      · exfalso
        have : k = d.key := congrArg Prod.fst hp
        omega
      · exact hih.2 v hp
  | case9 b bs d ds hnlt hne ih =>
    intro hBs hDs hb hd ht
    rw [mergeLists_cons_cons, if_neg hnlt, if_neg hne]
    have hdk : d.key ≤ k := by
      rcases List.mem_cons.mp hd with hh | hh
      · have : k = d.key := by rw [← hh]
        omega
      · have h2 : d.key < k := pairwise_head_lt DEntry.key hDs _ hh
        omega
    have hb' : (⟨k, vb⟩ : BEntry) ∈ bs := by
      rcases List.mem_cons.mp hb with hbb | hbb
      · exfalso
        have : k = b.key := by rw [← hbb]
        omega
      · exact hbb
    have hih := ih (pairwise_tail BEntry.key hBs) hDs hb' hd ht
    refine ⟨List.mem_cons_of_mem _ hih.1, ?_⟩
    intro v hv
    rcases List.mem_cons.mp hv with hp | hp
    · exfalso
      have : k = b.key := congrArg Prod.fst hp
      omega
    · exact hih.2 v hp

/-- C1: delta precedence over a full forward scan of the merging iterator
with default (absent) read options: when base and delta both contain key
`k`, a Put delta record makes the scan return the delta's value for `k`
(and nothing else for `k`), while a Delete/SingleDelete delta record
removes `k` from the scan entirely. -/
theorem C1_delta_precedence (B : List BEntry) (D : List DEntry)
    (hBs : baseSorted B) (hDs : deltaSorted D)
    (k vb vd : Nat) (t : WriteType)
    (hb : (⟨k, vb⟩ : BEntry) ∈ B) (hd : (⟨k, t, vd⟩ : DEntry) ∈ D) :
    (t = WriteType.kPutRecord →
      (k, vd) ∈ scanForward roNone B D ∧
      ∀ v, (k, v) ∈ scanForward roNone B D → v = vd) ∧
    ((t = WriteType.kDeleteRecord ∨ t = WriteType.kSingleDeleteRecord) →
      ∀ v, (k, v) ∉ scanForward roNone B D) := by
  rw [scanForward_eq_mergeLists]
  constructor
  · intro hput
    exact mergeLists_put_mem B D hBs hDs hb hd (by rw [hput]; decide)
  · intro hdel v
    exact mergeLists_tombstone_not_mem B D hBs hDs hd
      (by rcases hdel with h | h <;> rw [h] <;> decide) v

/-- Witness for C1: base holds `(2,20)`, delta holds `Put(2,99)`; the scan
contains `(2, 99)`. -/
theorem C1_delta_precedence_witness :
    (2, 99) ∈ scanForward roNone
      [⟨1, 10⟩, ⟨2, 20⟩] [⟨2, WriteType.kPutRecord, 99⟩] :=
  ((C1_delta_precedence [⟨1, 10⟩, ⟨2, 20⟩] [⟨2, WriteType.kPutRecord, 99⟩]
      (by unfold baseSorted; decide) (by unfold deltaSorted; decide)
      2 20 99 WriteType.kPutRecord
      (by decide) (by decide)).1 rfl).1

/-- C2 (code bug): on base `[(1,10),(2,20)]` and delta `[Delete(1)]`,
`SeekToFirst` followed by `Prev` leaves the iterator Valid at key 1 — a
key whose only delta record is a Delete.  During `SeekToFirst`'s
`UpdateCurrent` the delta iterator is advanced past its end while skipping
the tombstone; `Prev`'s direction change then refuses to re-seek it
because `progress_ == SEEK_TO_FIRST`, so the tombstone is lost and the
deleted key is exposed. -/
theorem C2_tombstone_violation :
    (initBDI [⟨1, 10⟩, ⟨2, 20⟩]
        [⟨1, .kDeleteRecord, 0⟩]).delta.entries.contains
      ⟨1, .kDeleteRecord, 0⟩ = true ∧
    Valid roNone (PrevOp roNone (SeekToFirstOp roNone
      (initBDI [⟨1, 10⟩, ⟨2, 20⟩] [⟨1, .kDeleteRecord, 0⟩]))) = true ∧
    keyOf (PrevOp roNone (SeekToFirstOp roNone
      (initBDI [⟨1, 10⟩, ⟨2, 20⟩] [⟨1, .kDeleteRecord, 0⟩]))) = 1 := by
  decide

/-- C7 (code bug): with `iterate_upper_bound = 4`, base `[(1,10),(3,30)]`
and delta `[Put(2,200),Put(4,400)]`, the full forward scan is
`[(1,10),(2,200),(3,30)]`, so the settled position at key 2 (reached by
`SeekToFirst; Next`) has both neighbors (1 and 3) inside the bounds; yet
`Next` then `Prev` lands Valid at key 4 — outside the upper bound and
ahead of the starting key — instead of returning to key 2.  The `Prev`
direction change re-seeks the bounds-invalidated delta iterator with a raw
`SeekToLast()`, and backward motion does not check the upper bound. -/
theorem C7_roundtrip_violation :
    scanForward ⟨none, some 4⟩ [⟨1, 10⟩, ⟨3, 30⟩]
      [⟨2, .kPutRecord, 200⟩, ⟨4, .kPutRecord, 400⟩] =
        [(1, 10), (2, 200), (3, 30)] ∧
    Valid ⟨none, some 4⟩ (NextOp ⟨none, some 4⟩ (SeekToFirstOp ⟨none, some 4⟩
      (initBDI [⟨1, 10⟩, ⟨3, 30⟩]
        [⟨2, .kPutRecord, 200⟩, ⟨4, .kPutRecord, 400⟩]))) = true ∧
    keyOf (NextOp ⟨none, some 4⟩ (SeekToFirstOp ⟨none, some 4⟩
      (initBDI [⟨1, 10⟩, ⟨3, 30⟩]
        [⟨2, .kPutRecord, 200⟩, ⟨4, .kPutRecord, 400⟩]))) = 2 ∧
    Valid ⟨none, some 4⟩ (PrevOp ⟨none, some 4⟩ (NextOp ⟨none, some 4⟩
      (NextOp ⟨none, some 4⟩ (SeekToFirstOp ⟨none, some 4⟩
        (initBDI [⟨1, 10⟩, ⟨3, 30⟩]
          [⟨2, .kPutRecord, 200⟩, ⟨4, .kPutRecord, 400⟩]))))) = true ∧
    keyOf (PrevOp ⟨none, some 4⟩ (NextOp ⟨none, some 4⟩
      (NextOp ⟨none, some 4⟩ (SeekToFirstOp ⟨none, some 4⟩
        (initBDI [⟨1, 10⟩, ⟨3, 30⟩]
          [⟨2, .kPutRecord, 200⟩, ⟨4, .kPutRecord, 400⟩]))))) = 4 := by
  decide

/-! ### `GetFromBatch`: positioning lemmas -/

theorem Cursor.prev_some (E : List DEntry) (n : Nat) :
    Cursor.prev ⟨E, some n⟩ = ⟨E, posOf n⟩ := by
  cases n with
  | zero => simp [Cursor.prev, posOf]
  | succ m => simp [Cursor.prev, posOf]

theorem gSkipForward_invalid (K : Nat) (E : List DEntry) :
    ∀ fuel, gSkipForward K fuel ⟨E, none⟩ = ⟨E, none⟩
  | 0 => rfl
  | fuel + 1 => by
    simp [gSkipForward, Cursor.valid]

/-- `findIdx?` skips a prefix on which the predicate fails. -/
theorem findIdx?_skip {α : Type} (p : α → Bool) :
    ∀ (l₁ l₂ : List α) (i : Nat), (∀ e ∈ l₁, p e = false) →
    List.findIdx? p (l₁ ++ l₂) i = List.findIdx? p l₂ (i + l₁.length)
  | [], l₂, i, _ => by simp
  | x :: xs, l₂, i, h => by
    have hx : p x = false := h x (List.mem_cons_self x xs)
    rw [List.cons_append, List.findIdx?_cons, if_neg (by simp [hx]),
      findIdx?_skip p xs l₂ (i + 1)
        (fun e he => h e (List.mem_cons_of_mem x he))]
    have harith : i + 1 + xs.length = i + (x :: xs).length := by
      simp only [List.length_cons]
      omega
    rw [harith]

/-- The skip-forward loop walks off the key's block: starting inside the
block, it stops at the first entry past it, or runs off the end. -/
theorem gSkipForward_block (K : Nat) :
    ∀ (Mr : List DEntry), ∀ (S E : List DEntry) (i fuel : Nat),
    E.drop i = Mr ++ S → (∀ e ∈ Mr, e.key = K) → (∀ e ∈ S, K < e.key) →
    Mr ++ S ≠ [] → Mr.length < fuel →
    gSkipForward K fuel ⟨E, some i⟩ =
      ⟨E, if S.isEmpty then none else some (i + Mr.length)⟩ := by
  intro Mr
  induction Mr with
  | nil =>
    intro S E i fuel hdrop hMr hS hne hfuel
    match S, hne with
    | s :: S', _ =>
      have hlen : i < E.length := by
        have := List.length_drop i E
        rw [hdrop] at this
        simp at this
        omega
      have hget : E.getD i dDefault = s := by
        rw [List.getD_eq_getElem?_getD]
        have h0 : (E.drop i)[0]? = E[i + 0]? := List.getElem?_drop E i 0
        rw [hdrop] at h0
        simp at h0
        rw [← h0]
        rfl
      obtain ⟨f, rfl⟩ : ∃ f, fuel = f + 1 := ⟨fuel - 1, by omega⟩
      have hkey : K < s.key := hS s (List.mem_cons_self s S')
      simp only [gSkipForward, Cursor.valid, Cursor.currentD, hget]
      rw [if_neg (by simp; omega)]
      simp
  | cons e Mr' ih =>
    intro S E i fuel hdrop hMr hS hne hfuel
    have hlen : i < E.length := by
      have := List.length_drop i E
      rw [hdrop] at this
      simp at this
      omega
    have hget : E.getD i dDefault = e := by
      rw [List.getD_eq_getElem?_getD]
      have h0 : (E.drop i)[0]? = E[i + 0]? := List.getElem?_drop E i 0
      rw [hdrop] at h0
      simp at h0
      rw [← h0]
      rfl
    have hdrop' : E.drop (i + 1) = Mr' ++ S := by
      rw [← List.tail_drop, hdrop]
      rfl
    have hkey : e.key = K := hMr e (List.mem_cons_self e Mr')
    obtain ⟨f, rfl⟩ : ∃ f, fuel = f + 1 := ⟨fuel - 1, by omega⟩
    simp only [gSkipForward, Cursor.valid, Cursor.currentD, hget]
    rw [if_pos (by simp; omega)]
    show gSkipForward K f (Cursor.next ⟨E, some i⟩) = _
    by_cases hnext : i + 1 < E.length
    · have hcn : Cursor.next ⟨E, some i⟩ = ⟨E, some (i + 1)⟩ := by
        simp [Cursor.next, hnext]
      rw [hcn, ih S E (i + 1) f hdrop'
        (fun x hx => hMr x (List.mem_cons_of_mem e hx)) hS
        (by
          intro hc
          have := List.length_drop (i + 1) E
          rw [hdrop', hc] at this
          simp at this
          omega)
        (by simp at hfuel; omega)]
      have harith : i + 1 + Mr'.length = i + (e :: Mr').length := by
        simp only [List.length_cons]
        omega
      rw [harith]
    · have hcn : Cursor.next ⟨E, some i⟩ = ⟨E, none⟩ := by
        simp [Cursor.next, hnext]
      have hMS : Mr' ++ S = [] := by
        have := List.length_drop (i + 1) E
        rw [hdrop'] at this
        have h2 : E.length - (i + 1) = 0 := by omega
        rw [h2] at this
        exact List.eq_nil_of_length_eq_zero this
      have hSnil : S = [] := (List.append_eq_nil.mp hMS).2
      rw [hcn, gSkipForward_invalid, hSnil]
      simp

/-- After the seek and the skip-forward loop, both repositioning paths of
`GetFromBatch` (cc:701-706) leave the cursor one slot before the first
entry past the key's block. -/
theorem reposition_block (K : Nat) (P M S : List DEntry)
    (hP : ∀ e ∈ P, e.key < K) (hM : ∀ e ∈ M, e.key = K)
    (hS : ∀ e ∈ S, K < e.key) :
    gSkipForward K ((P ++ M ++ S).length + 1)
      (Cursor.seek DEntry.key K ⟨P ++ M ++ S, none⟩) =
    ⟨P ++ M ++ S, if S.isEmpty then none else some (P.length + M.length)⟩ := by
  have hseek : Cursor.seek DEntry.key K ⟨P ++ M ++ S, none⟩ =
      ⟨P ++ M ++ S, if (M ++ S).isEmpty then none else some P.length⟩ := by
    unfold Cursor.seek
    congr 1
    show List.findIdx? _ (P ++ M ++ S) = _
    rw [List.append_assoc,
      findIdx?_skip _ P (M ++ S) 0
        (by
          intro e he
          have := hP e he
          simp only [decide_eq_false_iff_not]
          omega)]
    cases M with
    | nil =>
      cases S with
      | nil => simp
      | cons s S' =>
        have hk : K < s.key := hS s (List.mem_cons_self s S')
        rw [List.nil_append, List.findIdx?_cons,
          if_pos (by simp only [decide_eq_true_eq]; omega)]
        simp
    | cons m M' =>
      have hk : m.key = K := hM m (List.mem_cons_self m M')
      rw [List.cons_append, List.findIdx?_cons,
        if_pos (by simp only [decide_eq_true_eq]; omega)]
      simp
  rw [hseek]
  by_cases hSe : S.isEmpty = true
  · have hS0 : S = [] := List.isEmpty_iff.mp hSe
    subst hS0
    cases M with
    | nil =>
      have hc : (([] : List DEntry) ++ []).isEmpty = true := rfl
      rw [if_pos hc, gSkipForward_invalid]
      simp
    | cons m M' =>
      rw [if_neg (by simp)]
      exact gSkipForward_block K (m :: M') [] (P ++ (m :: M') ++ []) P.length
        ((P ++ (m :: M') ++ []).length + 1)
        (by rw [List.append_assoc, List.drop_left])
        hM (by intro e he; exact absurd he (List.not_mem_nil e))
        (by simp)
        (by simp only [List.length_cons, List.length_append,
              List.length_nil]; omega)
  · have hSne : ¬S.isEmpty = true := hSe
    rw [if_neg (by
      intro hc
      rcases List.append_eq_nil.mp (List.isEmpty_iff.mp hc) with ⟨_, hs⟩
      rw [hs] at hSne
      exact hSne rfl)]
    exact gSkipForward_block K M S (P ++ M ++ S) P.length
      ((P ++ M ++ S).length + 1)
      (by rw [List.append_assoc, List.drop_left])
      hM hS
      (by
        intro hc
        rcases List.append_eq_nil.mp hc with ⟨_, hs⟩
        rw [hs] at hSne
        exact hSne rfl)
      (by simp only [List.length_append]; omega)

/-- The downward loop of `GetFromBatch` computes the newest-first fold of
the key's block: starting one slot past the end of the block `Mc` (with
`P` strictly below the key to the left), the loop's final `result`,
operand stack, `entry_value` and status agree with `specLookup` on
`Mc.reverse`, relative to the incoming accumulator. -/
theorem gScan_spec (K : Nat) (ow : Bool) :
    ∀ (Mc : List DEntry), ∀ (P R : List DEntry) (res0 : GFBResult)
      (ops0 : List Nat) (fuel : Nat),
    (∀ e ∈ P, e.key < K) → (∀ e ∈ Mc, e.key = K) →
    Mc.length < fuel →
    (res0 = GFBResult.kNotFound ∨
      (res0 = GFBResult.kMergeInProgress ∧ ow = false)) →
    ∃ c, gScan K ow fuel
        ⟨res0, ops0, 0, .ok, ⟨P ++ Mc ++ R, posOf (P.length + Mc.length)⟩⟩ =
      ⟨(if (specLookup ow Mc.reverse).1 = .kNotFound then res0
          else (specLookup ow Mc.reverse).1),
        ops0 ++ (specLookup ow Mc.reverse).2.1,
        (specLookup ow Mc.reverse).2.2.1,
        (specLookup ow Mc.reverse).2.2.2, c⟩ := by
  intro Mc
  induction Mc using List.reverseRecOn with
  | nil =>
    intro P R res0 ops0 fuel hP hMc hfuel hres0
    obtain ⟨f, rfl⟩ : ∃ f, fuel = f + 1 := ⟨fuel - 1, by omega⟩
    have hsp : specLookup ow ([] : List DEntry).reverse =
        (.kNotFound, [], 0, .ok) := rfl
    rw [hsp]
    simp only [List.length_nil, Nat.add_zero, List.append_nil]
    by_cases hP0 : P.length = 0
    · have hpos : posOf P.length = none := by simp [posOf, hP0]
      rw [hpos]
      refine ⟨⟨P ++ R, none⟩, ?_⟩
      have hstep : gScan K ow (f + 1)
          ⟨res0, ops0, 0, .ok, ⟨P ++ R, none⟩⟩ =
          ⟨res0, ops0, 0, .ok, ⟨P ++ R, none⟩⟩ := by
        simp [gScan, Cursor.valid]
      rw [hstep]
      simp
    · have hpos : posOf P.length = some (P.length - 1) := by
        simp [posOf, hP0]
      rw [hpos]
      refine ⟨⟨P ++ R, some (P.length - 1)⟩, ?_⟩
      have hvalid : (⟨P ++ R, some (P.length - 1)⟩ :
          Cursor DEntry).valid = true := by
        simp only [Cursor.valid, List.length_append, decide_eq_true_eq]
        omega
      have hkq : (((⟨P ++ R, some (P.length - 1)⟩ :
          Cursor DEntry).currentD dDefault).key == K) = false := by
        have hmem : (P ++ R).getD (P.length - 1) dDefault ∈ P := by
          rw [List.getD_append _ _ _ _ (by omega),
            List.getD_eq_getElem _ _ (by omega)]
          exact List.getElem_mem _
        have := hP _ hmem
        simp only [Cursor.currentD, beq_eq_false_iff_ne, ne_eq]
        omega
      have hstep : gScan K ow (f + 1)
          ⟨res0, ops0, 0, .ok, ⟨P ++ R, some (P.length - 1)⟩⟩ =
          ⟨res0, ops0, 0, .ok, ⟨P ++ R, some (P.length - 1)⟩⟩ := by
        simp only [gScan]
        rw [if_pos hvalid, hkq]
        simp
      rw [hstep]
      simp
  | append_singleton Mc' e ih =>
    intro P R res0 ops0 fuel hP hMc hfuel hres0
    obtain ⟨f, rfl⟩ : ∃ f, fuel = f + 1 := ⟨fuel - 1, by omega⟩
    have hkeyE : e.key = K := hMc e (by simp)
    have hMc' : ∀ x ∈ Mc', x.key = K := fun x hx => hMc x (by simp [hx])
    have hfuel' : Mc'.length < f := by
      simp only [List.length_append, List.length_cons, List.length_nil]
        at hfuel
      omega
    have hrev : (Mc' ++ [e]).reverse = e :: Mc'.reverse := by simp
    have hEalt : P ++ (Mc' ++ [e]) ++ R = P ++ Mc' ++ (e :: R) := by simp
    rw [hrev, hEalt]
    have hlen : (Mc' ++ [e]).length = Mc'.length + 1 := by simp
    rw [hlen]
    have hpos : posOf (P.length + (Mc'.length + 1)) =
        some (P.length + Mc'.length) := by
      simp [posOf]
    rw [hpos]
    have hvalid : (⟨P ++ Mc' ++ (e :: R), some (P.length + Mc'.length)⟩ :
        Cursor DEntry).valid = true := by
      simp only [Cursor.valid, List.length_append, List.length_cons,
        decide_eq_true_eq]
      omega
    have hcur : (⟨P ++ Mc' ++ (e :: R), some (P.length + Mc'.length)⟩ :
        Cursor DEntry).currentD dDefault = e := by
      simp only [Cursor.currentD]
      rw [List.getD_append_right _ _ _ _ (by simp)]
      simp
    have hprev : Cursor.prev ⟨P ++ Mc' ++ (e :: R),
        some (P.length + Mc'.length)⟩ =
        ⟨P ++ Mc' ++ (e :: R), posOf (P.length + Mc'.length)⟩ :=
      Cursor.prev_some _ _
    simp only [gScan]
    rw [if_pos hvalid, hcur,
      show (e.key == K) = true by simp [hkeyE]]
    simp only [if_true]
    cases hw : e.wtype with
    | kPutRecord =>
      refine ⟨⟨P ++ Mc' ++ (e :: R), some (P.length + Mc'.length)⟩, ?_⟩
      simp [gSwitch, hw, specLookup]
    | kDeleteRecord =>
      refine ⟨⟨P ++ Mc' ++ (e :: R), some (P.length + Mc'.length)⟩, ?_⟩
      simp [gSwitch, hw, specLookup]
    | kSingleDeleteRecord =>
      refine ⟨⟨P ++ Mc' ++ (e :: R), some (P.length + Mc'.length)⟩, ?_⟩
      simp [gSwitch, hw, specLookup]
    | kDeleteRangeRecord =>
      refine ⟨⟨P ++ Mc' ++ (e :: R), some (P.length + Mc'.length)⟩, ?_⟩
      simp [gSwitch, hw, specLookup]
    | kMergeRecord =>
      rcases Bool.dichotomy ow with howv | howv
      swap
      · subst howv
        refine ⟨⟨P ++ Mc' ++ (e :: R), some (P.length + Mc'.length)⟩, ?_⟩
        simp [gSwitch, hw, specLookup]
      · subst howv
        rcases hq : specLookup false Mc'.reverse with ⟨r', ops', v', s'⟩
        obtain ⟨c, hc⟩ := ih P (e :: R) .kMergeInProgress
          (ops0 ++ [e.value]) f hP hMc' hfuel' (Or.inr ⟨rfl, rfl⟩)
        rw [hq] at hc
        refine ⟨c, ?_⟩
        rw [show gSwitch ⟨res0, ops0, 0, .ok,
            ⟨P ++ Mc' ++ (e :: R), some (P.length + Mc'.length)⟩⟩ e =
            ⟨.kMergeInProgress, ops0 ++ [e.value], 0, .ok,
              ⟨P ++ Mc' ++ (e :: R), some (P.length + Mc'.length)⟩⟩ by
          simp [gSwitch, hw]]
        rw [show (GFBResult.kMergeInProgress == GFBResult.kFound
            || GFBResult.kMergeInProgress == GFBResult.kDeleted
            || GFBResult.kMergeInProgress == GFBResult.kError) = false
          by decide]
        simp only [Bool.false_eq_true, if_false]
        rw [show (GFBResult.kMergeInProgress == GFBResult.kMergeInProgress
            && false) = false by simp]
        simp only [Bool.false_eq_true, if_false]
        show gScan K false f ⟨.kMergeInProgress, ops0 ++ [e.value], 0, .ok,
          Cursor.prev ⟨P ++ Mc' ++ (e :: R),
            some (P.length + Mc'.length)⟩⟩ = _
        rw [hprev, hc]
        simp [specLookup, hw, hq, List.append_assoc]
        cases r' <;> simp
    | kLogDataRecord =>
      rcases hres0 with h0 | ⟨h0, how⟩ <;> subst h0
      · obtain ⟨c, hc⟩ := ih P (e :: R) .kNotFound ops0 f hP hMc' hfuel'
          (Or.inl rfl)
        refine ⟨c, ?_⟩
        rw [show gSwitch ⟨GFBResult.kNotFound, ops0, 0, .ok,
            ⟨P ++ Mc' ++ (e :: R), some (P.length + Mc'.length)⟩⟩ e =
            ⟨GFBResult.kNotFound, ops0, 0, .ok,
              ⟨P ++ Mc' ++ (e :: R), some (P.length + Mc'.length)⟩⟩ by
          simp [gSwitch, hw]]
        rw [show (GFBResult.kNotFound == GFBResult.kFound
            || GFBResult.kNotFound == GFBResult.kDeleted
            || GFBResult.kNotFound == GFBResult.kError) = false by decide]
        simp only [Bool.false_eq_true, if_false]
        rw [show (GFBResult.kNotFound == GFBResult.kMergeInProgress
            && ow) = false by simp]
        simp only [Bool.false_eq_true, if_false]
        show gScan K ow f ⟨GFBResult.kNotFound, ops0, 0, .ok,
          Cursor.prev ⟨P ++ Mc' ++ (e :: R),
            some (P.length + Mc'.length)⟩⟩ = _
        rw [hprev, hc]
        simp [specLookup, hw]
      · subst how
        obtain ⟨c, hc⟩ := ih P (e :: R) .kMergeInProgress ops0 f hP hMc'
          hfuel' (Or.inr ⟨rfl, rfl⟩)
        refine ⟨c, ?_⟩
        rw [show gSwitch ⟨GFBResult.kMergeInProgress, ops0, 0, .ok,
            ⟨P ++ Mc' ++ (e :: R), some (P.length + Mc'.length)⟩⟩ e =
            ⟨GFBResult.kMergeInProgress, ops0, 0, .ok,
              ⟨P ++ Mc' ++ (e :: R), some (P.length + Mc'.length)⟩⟩ by
          simp [gSwitch, hw]]
        rw [show (GFBResult.kMergeInProgress == GFBResult.kFound
            || GFBResult.kMergeInProgress == GFBResult.kDeleted
            || GFBResult.kMergeInProgress == GFBResult.kError) = false
          by decide]
        simp only [Bool.false_eq_true, if_false]
        rw [show (GFBResult.kMergeInProgress == GFBResult.kMergeInProgress
            && false) = false by simp]
        simp only [Bool.false_eq_true, if_false]
        show gScan K false f ⟨GFBResult.kMergeInProgress, ops0, 0, .ok,
          Cursor.prev ⟨P ++ Mc' ++ (e :: R),
            some (P.length + Mc'.length)⟩⟩ = _
        rw [hprev, hc]
        simp [specLookup, hw]
    | kXIDRecord =>
      rcases hres0 with h0 | ⟨h0, how⟩ <;> subst h0
      · obtain ⟨c, hc⟩ := ih P (e :: R) .kNotFound ops0 f hP hMc' hfuel'
          (Or.inl rfl)
        refine ⟨c, ?_⟩
        rw [show gSwitch ⟨GFBResult.kNotFound, ops0, 0, .ok,
            ⟨P ++ Mc' ++ (e :: R), some (P.length + Mc'.length)⟩⟩ e =
            ⟨GFBResult.kNotFound, ops0, 0, .ok,
              ⟨P ++ Mc' ++ (e :: R), some (P.length + Mc'.length)⟩⟩ by
          simp [gSwitch, hw]]
        rw [show (GFBResult.kNotFound == GFBResult.kFound
            || GFBResult.kNotFound == GFBResult.kDeleted
            || GFBResult.kNotFound == GFBResult.kError) = false by decide]
        simp only [Bool.false_eq_true, if_false]
        rw [show (GFBResult.kNotFound == GFBResult.kMergeInProgress
            && ow) = false by simp]
        simp only [Bool.false_eq_true, if_false]
        show gScan K ow f ⟨GFBResult.kNotFound, ops0, 0, .ok,
          Cursor.prev ⟨P ++ Mc' ++ (e :: R),
            some (P.length + Mc'.length)⟩⟩ = _
        rw [hprev, hc]
        simp [specLookup, hw]
      · subst how
        obtain ⟨c, hc⟩ := ih P (e :: R) .kMergeInProgress ops0 f hP hMc'
          hfuel' (Or.inr ⟨rfl, rfl⟩)
        refine ⟨c, ?_⟩
        rw [show gSwitch ⟨GFBResult.kMergeInProgress, ops0, 0, .ok,
            ⟨P ++ Mc' ++ (e :: R), some (P.length + Mc'.length)⟩⟩ e =
            ⟨GFBResult.kMergeInProgress, ops0, 0, .ok,
              ⟨P ++ Mc' ++ (e :: R), some (P.length + Mc'.length)⟩⟩ by
          simp [gSwitch, hw]]
        rw [show (GFBResult.kMergeInProgress == GFBResult.kFound
            || GFBResult.kMergeInProgress == GFBResult.kDeleted
            || GFBResult.kMergeInProgress == GFBResult.kError) = false
          by decide]
        simp only [Bool.false_eq_true, if_false]
        rw [show (GFBResult.kMergeInProgress == GFBResult.kMergeInProgress
            && false) = false by simp]
        simp only [Bool.false_eq_true, if_false]
        show gScan K false f ⟨GFBResult.kMergeInProgress, ops0, 0, .ok,
          Cursor.prev ⟨P ++ Mc' ++ (e :: R),
            some (P.length + Mc'.length)⟩⟩ = _
        rw [hprev, hc]
        simp [specLookup, hw]

/-- Refinement: on a sorted per-CF index slice `P ++ M ++ S` (keys below
`K`, the `K`-block in insertion order, keys above `K`), `GetFromBatch`
returns exactly the documented newest-first fold over the key's records
followed by the merge post-step. -/
theorem GetFromBatch_spec
    (mergeOp : Option (Nat → Option Nat → List Nat → Option Nat))
    (P M S : List DEntry) (K : Nat) (ow : Bool)
    (hP : ∀ e ∈ P, e.key < K) (hM : ∀ e ∈ M, e.key = K)
    (hS : ∀ e ∈ S, K < e.key) :
    GetFromBatch mergeOp (P ++ M ++ S) K ow
      = specGetFromBatch mergeOp M.reverse K ow := by
  obtain ⟨c, hc⟩ := gScan_spec K ow M P S .kNotFound []
    ((P ++ M ++ S).length + 1) hP hM
    (by simp only [List.length_append]; omega) (Or.inl rfl)
  rcases hq : specLookup ow M.reverse with ⟨r, ops, v, s⟩
  rw [hq] at hc
  simp only [List.nil_append] at hc
  have hres : (if (r, ops, v, s).1 = GFBResult.kNotFound
      then GFBResult.kNotFound else (r, ops, v, s).1) = r := by
    cases r <;> simp
  rw [hres] at hc
  have hc2 : (if (⟨P ++ M ++ S, if S.isEmpty then none
        else some (P.length + M.length)⟩ : Cursor DEntry).valid = true
      then Cursor.prev ⟨P ++ M ++ S, if S.isEmpty then none
        else some (P.length + M.length)⟩
      else Cursor.seekToLast ⟨P ++ M ++ S, if S.isEmpty then none
        else some (P.length + M.length)⟩)
      = ⟨P ++ M ++ S, posOf (P.length + M.length)⟩ := by
    by_cases hSe : S.isEmpty = true
    · have hS0 : S = [] := List.isEmpty_iff.mp hSe
      subst hS0
      simp only [List.isEmpty_nil, eq_self_iff_true, if_true]
      rw [if_neg (by simp [Cursor.valid])]
      simp only [Cursor.seekToLast]
      congr 1
      by_cases hE : (P ++ M ++ ([] : List DEntry)).isEmpty = true
      · rw [if_pos hE]
        have hlen := congrArg List.length (List.isEmpty_iff.mp hE)
        simp only [List.length_append, List.length_nil] at hlen
        rw [show posOf (P.length + M.length) = none by
          simp only [posOf]
          rw [if_pos (by omega)]]
      · rw [if_neg hE]
        have hne : P ++ M ++ ([] : List DEntry) ≠ [] := by
          intro hcon
          rw [hcon] at hE
          exact hE rfl
        have hpos := List.length_pos.mpr hne
        simp only [List.length_append, List.length_nil] at hpos
        rw [show posOf (P.length + M.length) =
            some (P.length + M.length - 1) by
          simp only [posOf]
          rw [if_neg (by omega)]]
        simp [List.length_append]
    · have hSne : S ≠ [] := by
        intro hcon
        rw [hcon] at hSe
        exact hSe rfl
      have hSlen := List.length_pos.mpr hSne
      rw [if_neg hSe,
        if_pos (by
          simp only [Cursor.valid, List.length_append, decide_eq_true_eq]
          omega),
        Cursor.prev_some]
  show (let c0 := Cursor.seek DEntry.key K ⟨P ++ M ++ S, none⟩
        let c1 := gSkipForward K ((P ++ M ++ S).length + 1) c0
        let c2 := if c1.valid then c1.prev else c1.seekToLast
        let st := gScan K ow ((P ++ M ++ S).length + 1)
          ⟨.kNotFound, [], 0, .ok, c2⟩
        if st.statusG.isOK then
          if st.result == .kFound || st.result == .kDeleted then
            if st.merge_context.length > 0 then
              match MergeKey mergeOp K
                  (if st.result == .kFound then some st.entry_value else none)
                  st.merge_context with
              | (.ok, r) => (.kFound, .ok, r, st.merge_context)
              | (s, _) => (.kError, s, 0, st.merge_context)
            else (st.result, st.statusG, st.entry_value, st.merge_context)
          else (st.result, st.statusG, 0, st.merge_context)
        else (st.result, st.statusG, 0, st.merge_context))
      = specGetFromBatch mergeOp M.reverse K ow
  simp only
  rw [reposition_block K P M S hP hM hS, hc2, hc]
  simp only [specGetFromBatch, hq]

/-- C3: `GetFromBatch` returns the documented newest-first fold of the
key's records (refinement over every sorted index slice: keys below `K`,
then the `K`-block in insertion order, then keys above `K`), and on the
S4 batch `Merge(+1); Merge(+2); Put(10); Merge(+5)` with an integer-adding
merge operator it returns Found with value 15 under
`overwrite_key = false`, and MergeInProgress with operand stack `[+5]`
under `overwrite_key = true`. -/
theorem C3_reverse_lookup_law
    (mergeOp : Option (Nat → Option Nat → List Nat → Option Nat))
    (P M S : List DEntry) (K : Nat) (ow : Bool)
    (hP : ∀ e ∈ P, e.key < K) (hM : ∀ e ∈ M, e.key = K)
    (hS : ∀ e ∈ S, K < e.key) :
    GetFromBatch mergeOp (P ++ M ++ S) K ow
      = specGetFromBatch mergeOp M.reverse K ow ∧
    GetFromBatch (some (fun _ v ops => some (v.getD 0 + ops.sum)))
      [⟨7, .kMergeRecord, 1⟩, ⟨7, .kMergeRecord, 2⟩,
       ⟨7, .kPutRecord, 10⟩, ⟨7, .kMergeRecord, 5⟩] 7 false
      = (.kFound, .ok, 15, [5]) ∧
    GetFromBatch (some (fun _ v ops => some (v.getD 0 + ops.sum)))
      [⟨7, .kMergeRecord, 1⟩, ⟨7, .kMergeRecord, 2⟩,
       ⟨7, .kPutRecord, 10⟩, ⟨7, .kMergeRecord, 5⟩] 7 true
      = (.kMergeInProgress, .ok, 0, [5]) := by
  refine ⟨GetFromBatch_spec mergeOp P M S K ow hP hM hS, ?_, ?_⟩ <;> rfl

/-- Witness for C3 at a concrete sorted slice: a lone `Delete(7)` between
keys 2 and 9. -/
theorem C3_reverse_lookup_law_witness :
    GetFromBatch none
      ([⟨2, .kPutRecord, 4⟩] ++ [⟨7, .kDeleteRecord, 0⟩]
        ++ [⟨9, .kPutRecord, 1⟩]) 7 false
      = specGetFromBatch none [(⟨7, .kDeleteRecord, 0⟩ : DEntry)].reverse
          7 false :=
  (C3_reverse_lookup_law none [⟨2, .kPutRecord, 4⟩] [⟨7, .kDeleteRecord, 0⟩]
    [⟨9, .kPutRecord, 1⟩] 7 false (by decide) (by decide) (by decide)).1

/-- In the newest-first fold, a DeleteRange record reached through
non-stopping records (Merge without `overwrite_key`, LogData, XID) yields
`kError` with the `Unexpected entry` corruption status. -/
theorem specLookup_deleterange (ow : Bool) :
    ∀ (N1 : List DEntry) (dr : DEntry) (N2 : List DEntry),
    dr.wtype = .kDeleteRangeRecord →
    (∀ e ∈ N1, (e.wtype = .kMergeRecord ∧ ow = false) ∨
      e.wtype = .kLogDataRecord ∨ e.wtype = .kXIDRecord) →
    ∃ ops, specLookup ow (N1 ++ dr :: N2) =
      (.kError, ops, 0,
       .corruption "Unexpected entry in WriteBatchWithIndex:"
         (toString WriteType.kDeleteRangeRecord.toNat)) := by
  intro N1
  induction N1 with
  | nil =>
    intro dr N2 hdr _
    exact ⟨[], by simp [specLookup, hdr]⟩
  | cons x N1' ih =>
    intro dr N2 hdr hN1
    rcases hN1 x (List.mem_cons_self x N1') with ⟨hxw, how⟩ | hxw | hxw
    · subst how
      obtain ⟨ops, hops⟩ := ih dr N2 hdr
        (fun e he => hN1 e (List.mem_cons_of_mem x he))
      refine ⟨x.value :: ops, ?_⟩
      simp [specLookup, hxw, hops]
    · obtain ⟨ops, hops⟩ := ih dr N2 hdr
        (fun e he => hN1 e (List.mem_cons_of_mem x he))
      exact ⟨ops, by simp [specLookup, hxw, hops]⟩
    · obtain ⟨ops, hops⟩ := ih dr N2 hdr
        (fun e he => hN1 e (List.mem_cons_of_mem x he))
      exact ⟨ops, by simp [specLookup, hxw, hops]⟩

/-- C9: when the reverse scan of `GetFromBatch` reaches a DeleteRange
record for the looked-up key (the newer records for the key being
non-stopping: Merge without `overwrite_key`, LogData or XID markers), the
lookup returns `kError` with the
`Corruption("Unexpected entry in WriteBatchWithIndex:")` status — a range
deletion covering the key is reported as corruption, not as `kDeleted`. -/
theorem C9_deleterange_corruption
    (mergeOp : Option (Nat → Option Nat → List Nat → Option Nat))
    (P M S : List DEntry) (K : Nat) (ow : Bool)
    (hP : ∀ e ∈ P, e.key < K) (hM : ∀ e ∈ M, e.key = K)
    (hS : ∀ e ∈ S, K < e.key)
    (N1 N2 : List DEntry) (dr : DEntry)
    (hsplit : M.reverse = N1 ++ dr :: N2)
    (hdr : dr.wtype = .kDeleteRangeRecord)
    (hN1 : ∀ e ∈ N1, (e.wtype = .kMergeRecord ∧ ow = false) ∨
      e.wtype = .kLogDataRecord ∨ e.wtype = .kXIDRecord) :
    (GetFromBatch mergeOp (P ++ M ++ S) K ow).1 = .kError ∧
    (GetFromBatch mergeOp (P ++ M ++ S) K ow).2.1 =
      .corruption "Unexpected entry in WriteBatchWithIndex:"
        (toString WriteType.kDeleteRangeRecord.toNat) := by
  obtain ⟨ops, hops⟩ := specLookup_deleterange ow N1 dr N2 hdr hN1
  have hspec : specGetFromBatch mergeOp M.reverse K ow =
      (.kError, .corruption "Unexpected entry in WriteBatchWithIndex:"
        (toString WriteType.kDeleteRangeRecord.toNat), 0, ops) := by
    simp only [specGetFromBatch, hsplit, hops]
    simp [Status.isOK]
  rw [GetFromBatch_spec mergeOp P M S K ow hP hM hS, hspec]
  exact ⟨rfl, rfl⟩

/-- Witness for C9: a batch whose only record for key 7 is a DeleteRange. -/
theorem C9_deleterange_corruption_witness :
    (GetFromBatch none ([] ++ [⟨7, .kDeleteRangeRecord, 0⟩] ++ [])
      7 false).1 = GFBResult.kError ∧
    (GetFromBatch none ([] ++ [⟨7, .kDeleteRangeRecord, 0⟩] ++ [])
      7 false).2.1 =
      Status.corruption "Unexpected entry in WriteBatchWithIndex:"
        (toString WriteType.kDeleteRangeRecord.toNat) :=
  C9_deleterange_corruption none [] [⟨7, .kDeleteRangeRecord, 0⟩] [] 7 false
    (by decide) (by decide) (by decide) [] []
    ⟨7, .kDeleteRangeRecord, 0⟩ (by decide) (by decide) (by decide)

end WBWI
